import Mathlib

/-!
# Verification of the YouTube transcript-acquisition service

Shallow embedding of `src/server/services/youtube_service_fixed.py` and
`src/server/services/youtube_service (copy).py`.  Python strings are
modelled as `List Char`; Python `None` as `Option.none`; functions that
may let an exception escape return `Except`.  External collaborators
(yt-dlp, the transcript API, Whisper, HTTP mirrors) are parameters
describing their observable outcome at the call boundary.
-/

namespace YtSvc

/-- ASCII whitespace, the characters relevant to Python `str.strip` /
`\s` on the inputs this service handles. -/
def isWsC (c : Char) : Bool :=
  c = ' ' || c = '\t' || c = '\n' || c = '\r' || c = '\x0b' || c = '\x0c'

/-- Python `str.strip()` : drop leading and trailing whitespace. -/
def pyStrip (l : List Char) : List Char :=
  ((l.dropWhile isWsC).reverse.dropWhile isWsC).reverse

/-- Boolean prefix test on character lists. -/
def isPrefixB : List Char → List Char → Bool
  | [], _ => true
  | _ :: _, [] => false
  | a :: p, b :: s => a == b && isPrefixB p s

/-- Boolean suffix test on character lists. -/
def isSuffixB (p s : List Char) : Bool := isPrefixB p.reverse s.reverse

/-- Python `sub in s` (substring containment). -/
def pyIn (p : List Char) : List Char → Bool
  | [] => isPrefixB p []
  | c :: cs => isPrefixB p (c :: cs) || pyIn p cs

/-- Python `s.split(sep)` for a non-empty separator, via an explicit
fuel argument (the fuel is the length of the string, which is always
sufficient); written this way so that the kernel can evaluate it. -/
def splitGo (sep : List Char) : Nat → List Char → List (List Char)
  | _, [] => [[]]
  | 0, s => [s]
  | fuel + 1, c :: cs =>
    if sep ≠ [] ∧ isPrefixB sep (c :: cs) then
      [] :: splitGo sep fuel (cs.drop (sep.length - 1))
    else
      match splitGo sep fuel cs with
      | [] => [[c]]
      | l :: ls => (c :: l) :: ls

/-- Python `s.split(sep)`. -/
def splitOnSub (sep s : List Char) : List (List Char) :=
  splitGo sep s.length s

/-- The segment of `s` before the first occurrence of `sep`
(everything, if `sep` does not occur); the head of `splitOnSub sep s`. -/
def preSeg (sep : List Char) : List Char → List Char
  | [] => []
  | c :: cs =>
    if sep ≠ [] ∧ isPrefixB sep (c :: cs) then []
    else c :: preSeg sep cs

/-- Python truthiness of an optional string (`None` and `""` are falsy). -/
def pyTruthy : Option (List Char) → Bool
  | none => false
  | some l => !l.isEmpty

/-! ## Caption markup parser
(`get_full_transcript_with_enhanced_yt_dlp`, lines 452-473 of
`youtube_service_fixed.py`; the identical inline parsers of
`get_transcript_from_invidious_with_enhanced_options` share these
definitions.) -/

def webvttHdr : List Char := "WEBVTT".data

def arrowLine : List Char := "-->".data

/-- `re.match(r'^\d{2}:\d{2}', line)` : the line starts with
digit digit `:` digit digit. -/
def matchTs2 : List Char → Bool
  | a :: b :: c :: d :: e :: _ =>
    a.isDigit && b.isDigit && c = ':' && d.isDigit && e.isDigit
  | _ => false

/-- `re.match(r'^\d{2}:\d{2}:\d{2}', line)`. -/
def matchTs3 : List Char → Bool
  | a :: b :: c :: d :: e :: f :: g :: h :: _ =>
    a.isDigit && b.isDigit && c = ':' && d.isDigit && e.isDigit &&
    f = ':' && g.isDigit && h.isDigit
  | _ => false

/-- `re.match(r'^\d+$', line)` : the whole line is a non-empty digit run. -/
def matchPureInt (l : List Char) : Bool :=
  !l.isEmpty && l.all Char.isDigit

/-- Filter used by the WebVTT branch: keep a (stripped) line iff it is
non-empty, does not start with `WEBVTT`, matches neither timestamp
pattern, and is not the pure cue arrow. -/
def vttKeep (l : List Char) : Bool :=
  !l.isEmpty && !(isPrefixB webvttHdr l) && !matchTs2 l && !matchTs3 l &&
    !(l == arrowLine)

/-- Filter used by the SRT branch. -/
def srtKeep (l : List Char) : Bool :=
  !l.isEmpty && !matchPureInt l && !matchTs2 l && !(l == arrowLine)

/-- WebVTT branch of the caption parser: split on newlines, strip each
line, drop header/timestamp/arrow/empty lines, join with single spaces. -/
def parseVtt (content : List Char) : List Char :=
  List.intercalate [' '] (((splitOnSub ['\n'] content).map pyStrip).filter vttKeep)

/-- SRT branch of the caption parser. -/
def parseSrt (content : List Char) : List Char :=
  List.intercalate [' '] (((splitOnSub ['\n'] content).map pyStrip).filter srtKeep)

/-- Generic branch: `re.sub(r'\s+', ' ', content)` — collapse every
whitespace run to a single space. -/
def collapseWs : List Char → List Char
  | [] => []
  | [c] => if isWsC c then [' '] else [c]
  | c :: d :: cs =>
    if isWsC c then
      if isWsC d then collapseWs (d :: cs) else ' ' :: collapseWs (d :: cs)
    else c :: collapseWs (d :: cs)

/-! ### Facts about the string primitives -/

theorem isPrefixB_iff (p s : List Char) : isPrefixB p s = true ↔ ∃ r, s = p ++ r := by
  induction p generalizing s with
  | nil => simp [isPrefixB]
  | cons a p ih =>
    cases s with
    | nil => simp [isPrefixB]
    | cons b s =>
      simp only [isPrefixB, Bool.and_eq_true, beq_iff_eq, ih]
      constructor
      · rintro ⟨rfl, r, rfl⟩; exact ⟨r, rfl⟩
      · rintro ⟨r, h⟩
        rw [List.cons_append, List.cons.injEq] at h
        exact ⟨h.1.symm, r, h.2⟩

theorem isPrefixB_self_append (p r : List Char) : isPrefixB p (p ++ r) = true :=
  (isPrefixB_iff p (p ++ r)).2 ⟨r, rfl⟩

theorem isPrefixB_refl (p : List Char) : isPrefixB p p = true := by
  simpa using isPrefixB_self_append p []

theorem isPrefixB_length_le {p s : List Char} (h : isPrefixB p s = true) :
    p.length ≤ s.length := by
  obtain ⟨r, rfl⟩ := (isPrefixB_iff p s).1 h
  simp

/-- An occurrence of `p` at the start of `x ++ y` gives an occurrence of
`p.take x.length` at the start of `x`. -/
theorem isPrefixB_take_of_app {p x y : List Char} (h : isPrefixB p (x ++ y) = true) :
    isPrefixB (p.take x.length) x = true := by
  induction x generalizing p with
  | nil => simp [isPrefixB]
  | cons c x ih =>
    cases p with
    | nil => simp [isPrefixB]
    | cons a p =>
      simp only [List.cons_append, isPrefixB, Bool.and_eq_true] at h
      simp only [List.length_cons, List.take_succ_cons, isPrefixB, Bool.and_eq_true]
      exact ⟨h.1, ih h.2⟩

theorem isPrefixB_app_split {p x y : List Char} (h : isPrefixB p (x ++ y) = true)
    (hl : x.length ≤ p.length) : p.take x.length = x ∧ isPrefixB (p.drop x.length) y = true := by
  induction x generalizing p with
  | nil => simpa using h
  | cons c x ih =>
    cases p with
    | nil => simp at hl
    | cons a p =>
      simp only [List.cons_append, isPrefixB, Bool.and_eq_true, beq_iff_eq] at h
      simp only [List.length_cons, Nat.succ_le_succ_iff] at hl
      obtain ⟨h1, h2⟩ := ih h.2 hl
      simp [List.take_succ_cons, List.drop_succ_cons, h.1, h1, h2]

theorem isPrefixB_of_long {p s : List Char} (h : isPrefixB p s = true) :
    isPrefixB p (s ++ r) = true := by
  obtain ⟨t, rfl⟩ := (isPrefixB_iff p s).1 h
  rw [List.append_assoc]
  exact isPrefixB_self_append p (t ++ r)

theorem pyIn_iff (p s : List Char) : pyIn p s = true ↔ ∃ u v, s = u ++ p ++ v := by
  induction s with
  | nil =>
    simp only [pyIn, isPrefixB_iff]
    constructor
    · rintro ⟨r, h⟩
      exact ⟨[], r, by simpa using h⟩
    · rintro ⟨u, v, h⟩
      refine ⟨v, ?_⟩
      have hu : u = [] := by
        cases u with
        | nil => rfl
        | cons a u => simp at h
      simpa [hu] using h
  | cons c cs ih =>
    simp only [pyIn, Bool.or_eq_true, isPrefixB_iff, ih]
    constructor
    · rintro (⟨r, h⟩ | ⟨u, v, h⟩)
      · exact ⟨[], r, by simpa using h⟩
      · exact ⟨c :: u, v, by simp [h]⟩
    · rintro ⟨u, v, h⟩
      cases u with
      | nil => exact Or.inl ⟨v, by simpa using h⟩
      | cons a u =>
        simp only [List.cons_append, List.cons.injEq] at h
        exact Or.inr ⟨u, v, h.2⟩

theorem pyIn_of_isPrefixB {p s : List Char} (h : isPrefixB p s = true) : pyIn p s = true := by
  cases s with
  | nil => simpa [pyIn] using h
  | cons c cs => simp [pyIn, h]

theorem pyIn_append_left {p A : List Char} (x : List Char) (h : pyIn p A = true) :
    pyIn p (A ++ x) = true := by
  obtain ⟨u, v, rfl⟩ := (pyIn_iff p A).1 h
  exact (pyIn_iff p _).2 ⟨u, v ++ x, by simp⟩

theorem mem_of_pyIn {p s : List Char} (h : pyIn p s = true) {c : Char} (hc : c ∈ p) : c ∈ s := by
  obtain ⟨u, v, rfl⟩ := (pyIn_iff p s).1 h
  simp [hc]

theorem splitGo_congr (sep : List Char) :
    ∀ (m n : Nat) (s : List Char), s.length ≤ m → s.length ≤ n →
      splitGo sep m s = splitGo sep n s := by
  intro m
  induction m with
  | zero =>
    intro n s hm _
    have : s = [] := by
      cases s with
      | nil => rfl
      | cons c cs => simp at hm
    subst this
    cases n <;> rfl
  | succ m ih =>
    intro n s hm hn
    cases s with
    | nil => cases n <;> rfl
    | cons c cs =>
      cases n with
      | zero => simp at hn
      | succ n =>
        simp only [List.length_cons, Nat.succ_le_succ_iff] at hm hn
        by_cases h : sep ≠ [] ∧ isPrefixB sep (c :: cs) = true
        · have hd : (cs.drop (sep.length - 1)).length ≤ cs.length := by
            rw [List.length_drop]; omega
          simp only [splitGo, if_pos h]
          rw [ih n _ (le_trans hd hm) (le_trans hd hn)]
        · simp only [splitGo, if_neg h]
          rw [ih n cs hm hn]

theorem splitOnSub_nil (sep : List Char) : splitOnSub sep [] = [[]] := rfl

theorem splitOnSub_cons_pos {sep : List Char} (c : Char) (cs : List Char)
    (h1 : sep ≠ []) (h2 : isPrefixB sep (c :: cs) = true) :
    splitOnSub sep (c :: cs) = [] :: splitOnSub sep (cs.drop (sep.length - 1)) := by
  show splitGo sep (cs.length + 1) (c :: cs) = _
  simp only [splitGo, if_pos (And.intro h1 h2)]
  rw [splitGo_congr sep cs.length (cs.drop (sep.length - 1)).length _
    (by rw [List.length_drop]; omega) le_rfl]
  rfl

theorem splitOnSub_cons_neg {sep : List Char} (c : Char) (cs : List Char)
    (h : ¬(sep ≠ [] ∧ isPrefixB sep (c :: cs) = true)) :
    splitOnSub sep (c :: cs) =
      match splitOnSub sep cs with
      | [] => [[c]]
      | l :: ls => (c :: l) :: ls := by
  show splitGo sep (cs.length + 1) (c :: cs) = _
  simp only [splitGo, if_neg h]
  rfl

theorem splitOnSub_ne_nil (sep s : List Char) : splitOnSub sep s ≠ [] := by
  cases s with
  | nil => simp [splitOnSub_nil]
  | cons c cs =>
    by_cases h : sep ≠ [] ∧ isPrefixB sep (c :: cs) = true
    · rw [splitOnSub_cons_pos c cs h.1 h.2]; simp
    · rw [splitOnSub_cons_neg c cs h]
      cases splitOnSub sep cs <;> simp

/-- The head of `splitOnSub sep s` is the segment before the first
occurrence of `sep`. -/
theorem splitOnSub_head_aux (sep : List Char) :
    ∀ (n : Nat) (s : List Char), s.length ≤ n →
      ∃ t, splitOnSub sep s = preSeg sep s :: t := by
  intro n
  induction n with
  | zero =>
    intro s hs
    have : s = [] := by cases s with | nil => rfl | cons c cs => simp at hs
    subst this
    exact ⟨[], rfl⟩
  | succ n ih =>
    intro s hs
    cases s with
    | nil => exact ⟨[], rfl⟩
    | cons c cs =>
      simp only [List.length_cons, Nat.succ_le_succ_iff] at hs
      by_cases h : sep ≠ [] ∧ isPrefixB sep (c :: cs) = true
      · rw [splitOnSub_cons_pos c cs h.1 h.2]
        refine ⟨splitOnSub sep (cs.drop (sep.length - 1)), ?_⟩
        simp only [preSeg, if_pos h]
      · rw [splitOnSub_cons_neg c cs h]
        obtain ⟨t, ht⟩ := ih cs hs
        rw [ht]
        refine ⟨t, ?_⟩
        simp only [preSeg]
        rw [if_neg h]

/-- The head of `splitOnSub sep s` is the segment before the first
occurrence of `sep`. -/
theorem splitOnSub_head (sep s : List Char) :
    ∃ t, splitOnSub sep s = preSeg sep s :: t :=
  splitOnSub_head_aux sep s.length s le_rfl

/-- Decidable guard: no occurrence of `sep` begins strictly inside `a`
(including occurrences that would continue past the end of `a`). -/
def cleanB (sep a : List Char) : Bool :=
  (List.range a.length).all fun i => !(isPrefixB (sep.take (a.length - i)) (a.drop i))

theorem cleanB_tail {sep : List Char} {c : Char} {a : List Char}
    (h : cleanB sep (c :: a) = true) : cleanB sep a = true := by
  simp only [cleanB, List.all_eq_true, List.mem_range] at h ⊢
  intro i hi
  have := h (i + 1) (by simp; omega)
  simpa [Nat.succ_sub_succ] using this

theorem cleanB_head {sep a : List Char} (b : List Char) (ha : a ≠ [])
    (h : cleanB sep a = true) : isPrefixB sep (a ++ b) = false := by
  by_contra hc
  have hc' : isPrefixB sep (a ++ b) = true := by
    cases hx : isPrefixB sep (a ++ b) with
    | false => exact absurd hx hc
    | true => rfl
  have htake := isPrefixB_take_of_app hc'
  simp only [cleanB, List.all_eq_true, List.mem_range] at h
  have h0 := h 0 (by cases a with | nil => exact absurd rfl ha | cons x xs => simp)
  simp only [Nat.sub_zero, List.drop_zero, Bool.not_eq_true'] at h0
  rw [htake] at h0
  cases h0

theorem preSeg_append {sep a : List Char} (b : List Char) (h : cleanB sep a = true) :
    preSeg sep (a ++ b) = a ++ preSeg sep b := by
  induction a with
  | nil => simp
  | cons c a ih =>
    have h0 : isPrefixB sep (c :: (a ++ b)) = false := by
      have := cleanB_head (a := c :: a) b (by simp) h
      simpa using this
    simp only [List.cons_append, preSeg, List.append_eq]
    rw [if_neg (by simp [h0])]
    rw [ih (cleanB_tail h)]

theorem split_append_sep {sep : List Char} (hne : sep ≠ []) {a : List Char} (b : List Char)
    (h : cleanB sep a = true) :
    splitOnSub sep (a ++ sep ++ b) = a :: splitOnSub sep b := by
  induction a with
  | nil =>
    cases sep with
    | nil => exact absurd rfl hne
    | cons d ds =>
      simp only [List.nil_append, List.cons_append]
      rw [splitOnSub_cons_pos d (ds ++ b) hne
        (by simpa [List.cons_append] using isPrefixB_self_append (d :: ds) b)]
      simp only [List.length_cons, Nat.add_sub_cancel]
      rw [List.drop_left]
  | cons c a ih =>
    have h0 : isPrefixB sep (c :: (a ++ (sep ++ b))) = false := by
      have := cleanB_head (a := c :: a) (sep ++ b) (by simp) h
      simpa using this
    rw [List.append_assoc, List.cons_append]
    rw [splitOnSub_cons_neg c (a ++ (sep ++ b)) (by simp [h0])]
    rw [← List.append_assoc, ih (cleanB_tail h)]

theorem preSeg_no_occ {sep s : List Char} (h : pyIn sep s = false) : preSeg sep s = s := by
  induction s with
  | nil => rfl
  | cons c cs ih =>
    simp only [pyIn, Bool.or_eq_false_iff] at h
    simp only [preSeg]
    rw [if_neg (by simp [h.1])]
    rw [ih h.2]

theorem preSeg_single_no {c : Char} {s : List Char} (h : c ∉ s) : preSeg [c] s = s := by
  induction s with
  | nil => rfl
  | cons d cs ih =>
    have hcd : (c == d) = false := by
      simp only [beq_eq_false_iff_ne, ne_eq]
      rintro rfl; exact h (by simp)
    simp only [preSeg]
    rw [if_neg (by simp [isPrefixB, hcd])]
    rw [ih (fun hm => h (by simp [hm]))]

theorem preSeg_single_app {c : Char} {a : List Char} (b : List Char) (h : c ∉ a) :
    preSeg [c] (a ++ c :: b) = a := by
  induction a with
  | nil =>
    simp only [List.nil_append, preSeg]
    rw [if_pos (by simp [isPrefixB])]
  | cons d a ih =>
    have hcd : (c == d) = false := by
      simp only [beq_eq_false_iff_ne, ne_eq]
      rintro rfl; exact h (by simp)
    simp only [List.cons_append, preSeg, List.append_eq]
    rw [if_neg (by simp [isPrefixB, hcd])]
    rw [ih (fun hm => h (by simp [hm]))]

theorem split_single_app {c : Char} {a : List Char} (b : List Char) (h : c ∉ a) :
    splitOnSub [c] (a ++ c :: b) = a :: splitOnSub [c] b := by
  induction a with
  | nil =>
    simp only [List.nil_append]
    rw [splitOnSub_cons_pos c b (by simp) (by simp [isPrefixB])]
    simp
  | cons d a ih =>
    have hcd : (c == d) = false := by
      simp only [beq_eq_false_iff_ne, ne_eq]
      rintro rfl; exact h (by simp)
    simp only [List.cons_append]
    rw [splitOnSub_cons_neg d (a ++ c :: b) (by simp [isPrefixB, hcd])]
    rw [ih (fun hm => h (by simp [hm]))]

theorem split_single_no {c : Char} {s : List Char} (h : c ∉ s) : splitOnSub [c] s = [s] := by
  induction s with
  | nil => rfl
  | cons d cs ih =>
    have hcd : (c == d) = false := by
      simp only [beq_eq_false_iff_ne, ne_eq]
      rintro rfl; exact h (by simp)
    rw [splitOnSub_cons_neg d cs (by simp [isPrefixB, hcd])]
    rw [ih (fun hm => h (by simp [hm]))]

theorem isSuffixB_iff (p s : List Char) : isSuffixB p s = true ↔ ∃ u, s = u ++ p := by
  unfold isSuffixB
  rw [isPrefixB_iff]
  constructor
  · rintro ⟨r, h⟩
    refine ⟨r.reverse, ?_⟩
    have := congrArg List.reverse h
    simpa using this
  · rintro ⟨u, rfl⟩
    exact ⟨u.reverse, by simp⟩

theorem isSuffixB_refl (p : List Char) : isSuffixB p p = true :=
  (isSuffixB_iff p p).2 ⟨[], rfl⟩

theorem isSuffixB_cons {p l : List Char} (c : Char) (h : isSuffixB p l = true) :
    isSuffixB p (c :: l) = true := by
  obtain ⟨u, rfl⟩ := (isSuffixB_iff p l).1 h
  exact (isSuffixB_iff p _).2 ⟨c :: u, rfl⟩

/-- Decidable guard: any occurrence of `p` that starts inside `A` and
continues past its end would have to continue with a `bad` character. -/
def crossBad (p A : List Char) (bad : Char → Bool) : Bool :=
  (List.range p.length).all fun k =>
    k == 0 || !(isSuffixB (p.take k) A) || (p.drop k).any bad

theorem crossBad_tail {p : List Char} {a : Char} {A : List Char} {bad : Char → Bool}
    (h : crossBad p (a :: A) bad = true) : crossBad p A bad = true := by
  simp only [crossBad, List.all_eq_true, List.mem_range, Bool.or_eq_true] at h ⊢
  intro k hk
  rcases h k hk with (h0 | hs) | ha
  · exact Or.inl (Or.inl h0)
  · refine Or.inl (Or.inr ?_)
    simp only [Bool.not_eq_true'] at hs ⊢
    cases hx : isSuffixB (p.take k) A with
    | false => rfl
    | true => rw [isSuffixB_cons a hx] at hs; cases hs
  · exact Or.inr ha

theorem pyIn_cons_false {p : List Char} {a : Char} {A : List Char}
    (h : pyIn p (a :: A) = false) :
    isPrefixB p (a :: A) = false ∧ pyIn p A = false := by
  simpa [pyIn, Bool.or_eq_false_iff] using h

/-- No occurrence of `p` in `A ++ x` provided: `p` does not occur in `A`,
`p` contains a `bad` character while `x` contains none, and any crossing
occurrence would need a `bad` character in `x`. -/
theorem pyIn_concat_false {p x : List Char} {bad : Char → Bool}
    (hp : p.any bad = true) (hx : ∀ c ∈ x, bad c = false) :
    ∀ A : List Char, pyIn p A = false → crossBad p A bad = true →
      pyIn p (A ++ x) = false := by
  intro A
  induction A with
  | nil =>
    intro _ _
    simp only [List.nil_append]
    cases hpy : pyIn p x with
    | false => rfl
    | true =>
      obtain ⟨c, hcp, hcb⟩ := List.any_eq_true.1 hp
      rw [hx c (mem_of_pyIn hpy hcp)] at hcb
      cases hcb
  | cons a A ih =>
    intro hA hcr
    obtain ⟨hA1, hA2⟩ := pyIn_cons_false hA
    have htail : pyIn p (A ++ x) = false := ih hA2 (crossBad_tail hcr)
    show pyIn p (a :: (A ++ x)) = false
    simp only [pyIn, Bool.or_eq_false_iff]
    refine ⟨?_, htail⟩
    cases hpre : isPrefixB p (a :: (A ++ x)) with
    | false => rfl
    | true =>
      exfalso
      have hpre' : isPrefixB p ((a :: A) ++ x) = true := by simpa using hpre
      by_cases hlen : p.length ≤ (a :: A).length
      · have := isPrefixB_take_of_app hpre'
        rw [List.take_of_length_le hlen] at this
        rw [this] at hA1
        cases hA1
      · push_neg at hlen
        obtain ⟨htake, hdrop⟩ := isPrefixB_app_split hpre' (Nat.le_of_lt hlen)
        have hk0 : (a :: A).length ≠ 0 := by simp
        simp only [crossBad, List.all_eq_true, List.mem_range, Bool.or_eq_true] at hcr
        rcases hcr (a :: A).length hlen with (h0 | hs) | ha
        · simp at h0
        · rw [htake] at hs
          rw [isSuffixB_refl] at hs
          simp at hs
        · obtain ⟨c, hcp, hcb⟩ := List.any_eq_true.1 ha
          obtain ⟨r, hr⟩ := (isPrefixB_iff _ x).1 hdrop
          have hcx : c ∈ x := by rw [hr, List.mem_append]; exact Or.inl hcp
          rw [hx c hcx] at hcb
          cases hcb

/-! ### Facts about `pyStrip` and line splitting -/

theorem dropWhile_head_false {p : Char → Bool} :
    ∀ {l : List Char} {c : Char} {cs : List Char},
      l.dropWhile p = c :: cs → p c = false := by
  intro l
  induction l with
  | nil => intro c cs h; simp at h
  | cons d t ih =>
    intro c cs h
    by_cases hd : p d = true
    · rw [List.dropWhile_cons, if_pos hd] at h
      exact ih h
    · rw [List.dropWhile_cons, if_neg hd] at h
      cases h
      simpa using hd

theorem dropWhile_self {p : Char → Bool} {l : List Char}
    (h : ∀ c, l.head? = some c → p c = false) : l.dropWhile p = l := by
  cases l with
  | nil => rfl
  | cons d t =>
    rw [List.dropWhile_cons, if_neg (by simp [h d rfl])]

theorem getLast?_dropWhile {p : Char → Bool} :
    ∀ {l : List Char}, l.dropWhile p ≠ [] → (l.dropWhile p).getLast? = l.getLast? := by
  intro l
  induction l with
  | nil => intro h; simp at h
  | cons d t ih =>
    intro h
    by_cases hd : p d = true
    · rw [List.dropWhile_cons, if_pos hd] at h ⊢
      cases ht : t with
      | nil => rw [ht] at h; simp at h
      | cons e t' =>
        rw [← ht, ih h, ht, List.getLast?_cons_cons]
    · rw [List.dropWhile_cons, if_neg hd]

/-- Every character of `pyStrip l` is a character of `l`. -/
theorem pyStrip_sub {l : List Char} : ∀ c ∈ pyStrip l, c ∈ l := by
  intro c hc
  unfold pyStrip at hc
  rw [List.mem_reverse] at hc
  have h1 := (List.dropWhile_sublist _).subset hc
  rw [List.mem_reverse] at h1
  exact (List.dropWhile_sublist _).subset h1

/-- The result of `pyStrip` has no leading or trailing whitespace. -/
theorem pyStrip_edge (l : List Char) :
    (∀ c, (pyStrip l).head? = some c → isWsC c = false) ∧
    (∀ c, (pyStrip l).getLast? = some c → isWsC c = false) := by
  unfold pyStrip
  set X := l.dropWhile isWsC with hX
  set Y := X.reverse.dropWhile isWsC with hY
  constructor
  · intro c hc
    rw [List.head?_reverse] at hc
    have hYne : Y ≠ [] := by
      intro h; rw [h] at hc; simp at hc
    rw [hY, getLast?_dropWhile (hY ▸ hYne), List.getLast?_reverse] at hc
    cases hXc : X with
    | nil => rw [hXc] at hc; simp at hc
    | cons e t =>
      rw [hXc] at hc
      simp only [List.head?_cons, Option.some.injEq] at hc
      subst hc
      exact dropWhile_head_false hXc
  · intro c hc
    rw [List.getLast?_reverse] at hc
    cases hYc : Y with
    | nil => rw [hYc] at hc; simp at hc
    | cons e t =>
      rw [hYc] at hc
      simp only [List.head?_cons, Option.some.injEq] at hc
      subst hc
      exact dropWhile_head_false hYc

/-- A string with no leading or trailing whitespace is fixed by `pyStrip`. -/
theorem pyStrip_self {l : List Char}
    (h1 : ∀ c, l.head? = some c → isWsC c = false)
    (h2 : ∀ c, l.getLast? = some c → isWsC c = false) : pyStrip l = l := by
  unfold pyStrip
  rw [dropWhile_self h1]
  rw [dropWhile_self (by intro c hc; rw [List.head?_reverse] at hc; exact h2 c hc)]
  exact List.reverse_reverse l

/-- No element of `splitOnSub [c] s` contains `c`. -/
theorem mem_split_single {c : Char} :
    ∀ {s : List Char}, ∀ l ∈ splitOnSub [c] s, c ∉ l := by
  intro s
  induction s with
  | nil =>
    intro l hl
    rw [splitOnSub_nil] at hl
    simp at hl
    simp [hl]
  | cons d cs ih =>
    intro l hl
    by_cases hcd : (c == d) = true
    · rw [splitOnSub_cons_pos d cs (by simp) (by simp [isPrefixB, hcd])] at hl
      simp only [List.length_cons, List.length_nil, Nat.zero_add, Nat.sub_self,
        List.drop_zero] at hl
      rcases List.mem_cons.1 hl with rfl | hl'
      · simp
      · exact ih l hl'
    · rw [splitOnSub_cons_neg d cs (by simp [isPrefixB, hcd])] at hl
      cases hsp : splitOnSub [c] cs with
      | nil => exact absurd hsp (splitOnSub_ne_nil [c] cs)
      | cons m ms =>
        rw [hsp] at hl
        rcases List.mem_cons.1 hl with rfl | hl'
        · intro hmem
          rcases List.mem_cons.1 hmem with rfl | hmem'
          · simp at hcd
          · exact ih m (by rw [hsp]; simp) hmem'
        · exact ih l (by rw [hsp]; simp [hl'])

theorem intercalate_nil (sep : List Char) :
    List.intercalate sep ([] : List (List Char)) = [] := by
  simp [List.intercalate]

theorem intercalate_single (sep a : List Char) : List.intercalate sep [a] = a := by
  simp [List.intercalate]

theorem intercalate_cons2 (sep a x : List Char) (b : List (List Char)) :
    List.intercalate sep (a :: x :: b) = a ++ sep ++ List.intercalate sep (x :: b) := by
  simp [List.intercalate, List.intersperse_cons_cons]

theorem intercalate_ne_nil (sep : List Char) {a : List Char} (ha : a ≠ [])
    (b : List (List Char)) : List.intercalate sep (a :: b) ≠ [] := by
  cases b with
  | nil => rw [intercalate_single]; exact ha
  | cons x b =>
    rw [intercalate_cons2]
    simp only [ne_eq, List.append_eq_nil, not_and]
    intro h
    exact absurd h.1 ha

/-- Splitting on newlines inverts joining lines that contain none. -/
theorem split_nl_intercalate :
    ∀ {ls : List (List Char)}, (∀ l ∈ ls, '\n' ∉ l) → ls ≠ [] →
      splitOnSub ['\n'] (List.intercalate ['\n'] ls) = ls := by
  intro ls
  induction ls with
  | nil => intro _ h; exact absurd rfl h
  | cons x t ih =>
    intro h _
    cases t with
    | nil =>
      rw [intercalate_single]
      rw [split_single_no (h x (by simp))]
    | cons y t' =>
      rw [intercalate_cons2, List.append_assoc, List.singleton_append]
      rw [split_single_app _ (h x (by simp))]
      rw [ih (fun l hl => h l (by simp [hl])) (by simp)]

theorem not_mem_intercalate_sp {c : Char} (hc : c ≠ ' ') :
    ∀ {parts : List (List Char)}, (∀ l ∈ parts, c ∉ l) →
      c ∉ List.intercalate [' '] parts := by
  intro parts
  induction parts with
  | nil => intro _; rw [intercalate_nil]; simp
  | cons p t ih =>
    intro h
    cases t with
    | nil =>
      rw [intercalate_single]; exact h p (by simp)
    | cons q t' =>
      rw [intercalate_cons2]
      intro hmem
      rcases List.mem_append.1 hmem with h1 | h2
      · rcases List.mem_append.1 h1 with h3 | h4
        · exact h p (by simp) h3
        · simp at h4; exact hc h4
      · exact ih (fun l hl => h l (by simp [hl])) h2

/-! ### The caption parsers preserve their own output shape -/

theorem matchTs2_sp1 (t : List Char) : matchTs2 (' ' :: t) = false := by
  cases t with
  | nil => rfl
  | cons b t =>
    cases t with
    | nil => rfl
    | cons c t =>
      cases t with
      | nil => rfl
      | cons d t =>
        cases t with
        | nil => rfl
        | cons e t => simp [matchTs2]

theorem matchTs2_sp2 (x : Char) (t : List Char) : matchTs2 (x :: ' ' :: t) = false := by
  cases t with
  | nil => rfl
  | cons c t =>
    cases t with
    | nil => rfl
    | cons d t =>
      cases t with
      | nil => rfl
      | cons e t => simp [matchTs2]

theorem matchTs2_sp3 (x y : Char) (t : List Char) : matchTs2 (x :: y :: ' ' :: t) = false := by
  cases t with
  | nil => rfl
  | cons d t =>
    cases t with
    | nil => rfl
    | cons e t => simp [matchTs2]

theorem matchTs2_sp4 (x y z : Char) (t : List Char) :
    matchTs2 (x :: y :: z :: ' ' :: t) = false := by
  cases t with
  | nil => rfl
  | cons e t => simp [matchTs2]

theorem matchTs2_sp5 (x y z w : Char) (t : List Char) :
    matchTs2 (x :: y :: z :: w :: ' ' :: t) = false := by
  simp [matchTs2]

/-- Appending a space and anything after a non-timestamp start cannot
create a leading timestamp pattern. -/
theorem matchTs2_app_sp {a : List Char} (h : matchTs2 a = false) (r : List Char) :
    matchTs2 (a ++ ' ' :: r) = false := by
  match a with
  | [] => exact matchTs2_sp1 r
  | [x] => exact matchTs2_sp2 x r
  | [x, y] => exact matchTs2_sp3 x y r
  | [x, y, z] => exact matchTs2_sp4 x y z r
  | [x, y, z, w] => exact matchTs2_sp5 x y z w r
  | x :: y :: z :: w :: v :: t =>
    simp only [matchTs2] at h
    simpa [matchTs2] using h

theorem matchTs3_imp_ts2 {l : List Char} (h : matchTs3 l = true) : matchTs2 l = true := by
  match l with
  | a :: b :: c :: d :: e :: f :: g :: h' :: t =>
    simp only [matchTs3, Bool.and_eq_true] at h
    simp only [matchTs2, Bool.and_eq_true]
    exact ⟨⟨⟨⟨h.1.1.1.1.1.1.1, h.1.1.1.1.1.1.2⟩, h.1.1.1.1.1.2⟩, h.1.1.1.1.2⟩, h.1.1.1.2⟩
  | [] => simp [matchTs3] at h
  | [a] => simp [matchTs3] at h
  | [a, b] => simp [matchTs3] at h
  | [a, b, c] => simp [matchTs3] at h
  | [a, b, c, d] => simp [matchTs3] at h
  | [a, b, c, d, e] => simp [matchTs3] at h
  | [a, b, c, d, e, f] => simp [matchTs3] at h
  | [a, b, c, d, e, f, g] => simp [matchTs3] at h

/-- Appending a space and anything cannot create an occurrence of a
space-free pattern at the start. -/
theorem isPrefixB_app_sp {p a : List Char} (hsp : ' ' ∉ p)
    (h : isPrefixB p a = false) (r : List Char) :
    isPrefixB p (a ++ ' ' :: r) = false := by
  cases hq : isPrefixB p (a ++ ' ' :: r) with
  | false => rfl
  | true =>
    exfalso
    by_cases hlen : p.length ≤ a.length
    · have := isPrefixB_take_of_app hq
      rw [List.take_of_length_le hlen] at this
      rw [this] at h
      cases h
    · push_neg at hlen
      obtain ⟨_, hdrop⟩ := isPrefixB_app_split hq (Nat.le_of_lt hlen)
      cases hd : p.drop a.length with
      | nil =>
        have := congrArg List.length hd
        simp only [List.length_drop, List.length_nil] at this
        omega
      | cons e t' =>
        rw [hd] at hdrop
        simp only [isPrefixB, Bool.and_eq_true, beq_iff_eq] at hdrop
        have : e ∈ p := List.drop_subset a.length p (by rw [hd]; simp)
        rw [hdrop.1] at this
        exact hsp this

theorem beq_false_of_mem_not_mem {c : Char} {l m : List Char}
    (h1 : c ∈ l) (h2 : c ∉ m) : (l == m) = false := by
  simp only [beq_eq_false_iff_ne, ne_eq]
  rintro rfl
  exact h2 h1

theorem vttKeep_ne_nil {L : List Char} (h : vttKeep L = true) : L ≠ [] := by
  simp only [vttKeep, Bool.and_eq_true, Bool.not_eq_true', List.isEmpty_eq_false] at h
  exact h.1.1.1.1

theorem srtKeep_ne_nil {L : List Char} (h : srtKeep L = true) : L ≠ [] := by
  simp only [srtKeep, Bool.and_eq_true, Bool.not_eq_true', List.isEmpty_eq_false] at h
  exact h.1.1.1

/-- The space-join of `vttKeep`-lines is itself a `vttKeep`-line. -/
theorem vttKeep_join :
    ∀ {parts : List (List Char)}, parts ≠ [] → (∀ L ∈ parts, vttKeep L = true) →
      vttKeep (List.intercalate [' '] parts) = true := by
  intro parts hne h
  cases parts with
  | nil => exact absurd rfl hne
  | cons p t =>
    cases t with
    | nil => rw [intercalate_single]; exact h p (by simp)
    | cons q t' =>
      rw [intercalate_cons2, List.append_assoc, List.singleton_append]
      have hp := h p (by simp)
      simp only [vttKeep, Bool.and_eq_true, Bool.not_eq_true',
        List.isEmpty_eq_false] at hp
      obtain ⟨⟨⟨⟨hp1, hp2⟩, hp3⟩, _⟩, _⟩ := hp
      have hsp : ' ' ∈ p ++ ' ' :: List.intercalate [' '] (q :: t') := by simp
      have hts2 := matchTs2_app_sp hp3 (List.intercalate [' '] (q :: t'))
      simp only [vttKeep, Bool.and_eq_true, Bool.not_eq_true',
        List.isEmpty_eq_false]
      refine ⟨⟨⟨⟨?_, ?_⟩, hts2⟩, ?_⟩, ?_⟩
      · simp [hp1]
      · exact isPrefixB_app_sp (by decide) hp2 _
      · cases h3 : matchTs3 (p ++ ' ' :: List.intercalate [' '] (q :: t')) with
        | false => rfl
        | true => rw [matchTs3_imp_ts2 h3] at hts2; cases hts2
      · exact beq_false_of_mem_not_mem hsp (by decide)

/-- The space-join of `srtKeep`-lines is itself an `srtKeep`-line. -/
theorem srtKeep_join :
    ∀ {parts : List (List Char)}, parts ≠ [] → (∀ L ∈ parts, srtKeep L = true) →
      srtKeep (List.intercalate [' '] parts) = true := by
  intro parts hne h
  cases parts with
  | nil => exact absurd rfl hne
  | cons p t =>
    cases t with
    | nil => rw [intercalate_single]; exact h p (by simp)
    | cons q t' =>
      rw [intercalate_cons2, List.append_assoc, List.singleton_append]
      have hp := h p (by simp)
      simp only [srtKeep, Bool.and_eq_true, Bool.not_eq_true',
        List.isEmpty_eq_false] at hp
      obtain ⟨⟨⟨hp1, _⟩, hp3⟩, _⟩ := hp
      have hsp : ' ' ∈ p ++ ' ' :: List.intercalate [' '] (q :: t') := by simp
      simp only [srtKeep, Bool.and_eq_true, Bool.not_eq_true',
        List.isEmpty_eq_false]
      refine ⟨⟨⟨?_, ?_⟩, matchTs2_app_sp hp3 _⟩, ?_⟩
      · simp [hp1]
      · simp only [matchPureInt, Bool.and_eq_false_iff]
        right
        cases hall : (p ++ ' ' :: List.intercalate [' '] (q :: t')).all Char.isDigit with
        | false => rfl
        | true =>
          have := List.all_eq_true.1 hall ' ' hsp
          simp at this
      · exact beq_false_of_mem_not_mem hsp (by decide)

/-- Edges of a space-join of non-empty edge-clean parts are edge-clean. -/
theorem join_edge :
    ∀ {parts : List (List Char)},
      (∀ L ∈ parts, L ≠ [] ∧ (∀ c, L.head? = some c → isWsC c = false) ∧
        (∀ c, L.getLast? = some c → isWsC c = false)) →
      (∀ c, (List.intercalate [' '] parts).head? = some c → isWsC c = false) ∧
      (∀ c, (List.intercalate [' '] parts).getLast? = some c → isWsC c = false) := by
  intro parts
  induction parts with
  | nil =>
    intro _
    rw [intercalate_nil]
    constructor <;> intro c hc <;> simp at hc
  | cons p t ih =>
    intro h
    obtain ⟨hpne, hph, hpl⟩ := h p (by simp)
    cases t with
    | nil =>
      rw [intercalate_single]
      exact ⟨hph, hpl⟩
    | cons q t' =>
      rw [intercalate_cons2, List.append_assoc]
      have hqne : (h q (by simp)).1 = (h q (by simp)).1 := rfl
      have hrest : List.intercalate [' '] (q :: t') ≠ [] :=
        intercalate_ne_nil [' '] (h q (by simp)).1 t'
      constructor
      · intro c hc
        rw [List.head?_append_of_ne_nil p hpne] at hc
        exact hph c hc
      · intro c hc
        rw [List.getLast?_append_of_ne_nil p (by simp)] at hc
        rw [List.getLast?_append_of_ne_nil [' '] hrest] at hc
        exact (ih (fun L hL => h L (by simp [hL]))).2 c hc

/-! ### Idempotence of the three parsing rules -/

theorem parseVtt_nil : parseVtt [] = [] := rfl

theorem parseSrt_nil : parseSrt [] = [] := rfl

/-- Shared shape facts about the kept lines of a parsed document. -/
theorem kept_lines_facts (keep : List Char → Bool) (s : List Char) :
    ∀ L ∈ ((splitOnSub ['\n'] s).map pyStrip).filter keep,
      keep L = true ∧ '\n' ∉ L ∧
      (∀ c, L.head? = some c → isWsC c = false) ∧
      (∀ c, L.getLast? = some c → isWsC c = false) := by
  intro L hL
  obtain ⟨hmem, hkeep⟩ := List.mem_filter.1 hL
  obtain ⟨l0, hl0, rfl⟩ := List.mem_map.1 hmem
  have hnl : '\n' ∉ l0 := mem_split_single l0 hl0
  refine ⟨hkeep, fun hc => hnl (pyStrip_sub _ hc), (pyStrip_edge l0).1, (pyStrip_edge l0).2⟩

theorem parseVtt_idem (s : List Char) : parseVtt (parseVtt s) = parseVtt s := by
  have hfacts := kept_lines_facts vttKeep s
  cases hK : ((splitOnSub ['\n'] s).map pyStrip).filter vttKeep with
  | nil =>
    have h1 : parseVtt s = [] := by
      unfold parseVtt
      rw [hK]
      rfl
    rw [h1]
    rfl
  | cons p t =>
    rw [hK] at hfacts
    set K : List (List Char) := p :: t with hKdef
    have hJ : parseVtt s = List.intercalate [' '] K := by
      unfold parseVtt
      rw [hK]
    set J := List.intercalate [' '] K with hJdef
    have hkeepall : ∀ L ∈ K, vttKeep L = true := fun L hL => (hfacts L hL).1
    have hnlJ : '\n' ∉ J :=
      not_mem_intercalate_sp (by decide) (fun L hL => (hfacts L hL).2.1)
    have hedge := @join_edge K
      (fun L hL => ⟨vttKeep_ne_nil (hkeepall L hL), (hfacts L hL).2.2.1, (hfacts L hL).2.2.2⟩)
    have hkeepJ : vttKeep J = true := vttKeep_join (by simp [hKdef]) hkeepall
    rw [hJ]
    unfold parseVtt
    rw [split_single_no hnlJ]
    simp only [List.map_cons, List.map_nil, List.filter]
    rw [pyStrip_self hedge.1 hedge.2]
    rw [hkeepJ]
    simp only [List.filter_nil]
    rw [intercalate_single]

theorem parseSrt_idem (s : List Char) : parseSrt (parseSrt s) = parseSrt s := by
  have hfacts := kept_lines_facts srtKeep s
  cases hK : ((splitOnSub ['\n'] s).map pyStrip).filter srtKeep with
  | nil =>
    have h1 : parseSrt s = [] := by
      unfold parseSrt
      rw [hK]
      rfl
    rw [h1]
    rfl
  | cons p t =>
    rw [hK] at hfacts
    set K : List (List Char) := p :: t with hKdef
    have hJ : parseSrt s = List.intercalate [' '] K := by
      unfold parseSrt
      rw [hK]
    set J := List.intercalate [' '] K with hJdef
    have hkeepall : ∀ L ∈ K, srtKeep L = true := fun L hL => (hfacts L hL).1
    have hnlJ : '\n' ∉ J :=
      not_mem_intercalate_sp (by decide) (fun L hL => (hfacts L hL).2.1)
    have hedge := @join_edge K
      (fun L hL => ⟨srtKeep_ne_nil (hkeepall L hL), (hfacts L hL).2.2.1, (hfacts L hL).2.2.2⟩)
    have hkeepJ : srtKeep J = true := srtKeep_join (by simp [hKdef]) hkeepall
    rw [hJ]
    unfold parseSrt
    rw [split_single_no hnlJ]
    simp only [List.map_cons, List.map_nil, List.filter]
    rw [pyStrip_self hedge.1 hedge.2]
    rw [hkeepJ]
    simp only [List.filter_nil]
    rw [intercalate_single]

theorem collapseWs_one (c : Char) :
    collapseWs [c] = if isWsC c then [' '] else [c] := rfl

theorem collapseWs_cons2 (c d : Char) (cs : List Char) :
    collapseWs (c :: d :: cs) =
      if isWsC c then
        if isWsC d then collapseWs (d :: cs) else ' ' :: collapseWs (d :: cs)
      else c :: collapseWs (d :: cs) := rfl

theorem collapseWs_ne_nil (a : Char) (t : List Char) : collapseWs (a :: t) ≠ [] := by
  cases t with
  | nil =>
    rw [collapseWs_one]
    split <;> simp
  | cons d cs =>
    rw [collapseWs_cons2]
    split
    · split
      · exact collapseWs_ne_nil d cs
      · simp
    · simp

theorem collapseWs_head_nonws {d : Char} (hd : isWsC d = false) (cs : List Char) :
    ∃ xs, collapseWs (d :: cs) = d :: xs := by
  cases cs with
  | nil =>
    refine ⟨[], ?_⟩
    rw [collapseWs_one, if_neg (by simp [hd])]
  | cons e cs' =>
    refine ⟨collapseWs (e :: cs'), ?_⟩
    rw [collapseWs_cons2, if_neg (by simp [hd])]

theorem collapseWs_idem (l : List Char) : collapseWs (collapseWs l) = collapseWs l := by
  induction l with
  | nil => rfl
  | cons c rest ih =>
    cases rest with
    | nil =>
      by_cases hc : isWsC c = true
      · rw [collapseWs_one, if_pos hc]
        rfl
      · rw [collapseWs_one, if_neg hc, collapseWs_one, if_neg hc]
    | cons d cs =>
      by_cases hc : isWsC c = true
      · by_cases hd : isWsC d = true
        · rw [collapseWs_cons2, if_pos hc, if_pos hd]
          exact ih
        · rw [collapseWs_cons2, if_pos hc, if_neg hd]
          obtain ⟨xs, hxs⟩ := collapseWs_head_nonws (by simpa using hd) cs
          rw [hxs, collapseWs_cons2, if_pos (by decide), if_neg hd, ← hxs, ih, hxs]
      · rw [collapseWs_cons2, if_neg hc]
        cases hX : collapseWs (d :: cs) with
        | nil => exact absurd hX (collapseWs_ne_nil d cs)
        | cons x xs =>
          rw [collapseWs_cons2, if_neg hc, ← hX, ih, hX]

/-- C6 helper: comparing the doubled and single applications of all three
format rules at once. -/
def parserIdemAt (s : List Char) : Prop :=
  parseVtt (parseVtt s) = parseVtt s ∧ parseSrt (parseSrt s) = parseSrt s ∧
  collapseWs (collapseWs s) = collapseWs s

/-- **C6.** The caption parser is idempotent: for every input text and each
format rule (WebVTT, SRT, generic whitespace-collapse), re-parsing the
parser's flat-text output leaves it unchanged. -/
theorem caption_parser_idempotent (s : List Char) : parserIdemAt s :=
  ⟨parseVtt_idem s, parseSrt_idem s, collapseWs_idem s⟩

/-! ### C5: the WebVTT branch on a structured document

The line classes below are written from the specification's description
of a WebVTT sample ("a `WEBVTT` header line, cue timestamp lines
(`HH:MM:SS` or `MM:SS`, optionally followed by `-->`), pure cue-arrow
lines, and N non-empty text lines"), to be compared with what the code's
filter keeps. -/

/-- `HH:MM:SS` or `MM:SS` with two-digit fields. -/
def specTsCore : List Char → Bool
  | [a, b, c, d, e] => a.isDigit && b.isDigit && (c == ':') && d.isDigit && e.isDigit
  | [a, b, c, d, e, f, g, h] =>
    a.isDigit && b.isDigit && (c == ':') && d.isDigit && e.isDigit &&
    (f == ':') && g.isDigit && h.isDigit
  | _ => false

/-- The string contains the cue arrow `-->` somewhere. -/
def hasArrowB : List Char → Bool
  | '-' :: '-' :: '>' :: _ => true
  | _ :: t => hasArrowB t
  | [] => false

/-- A cue timestamp line: `MM:SS` or `HH:MM:SS`, either alone or
followed by material containing the cue arrow. -/
def specTsLineB (l : List Char) : Bool :=
  (specTsCore (l.take 5) && ((l.drop 5).isEmpty || hasArrowB (l.drop 5))) ||
  (specTsCore (l.take 8) && ((l.drop 8).isEmpty || hasArrowB (l.drop 8)))

/-- A `WEBVTT` header line. -/
def specHeaderLineB (l : List Char) : Bool := isPrefixB webvttHdr l

/-- A text line: non-empty and not of any markup class. -/
def specTextLineB (l : List Char) : Bool :=
  !l.isEmpty && !(isPrefixB webvttHdr l) && !matchTs2 l && !(l == arrowLine)

/-- A digits-colon pattern (`\d{2}:\d{2}`) occurs somewhere in the string. -/
def hasTsPat : List Char → Bool
  | [] => false
  | c :: cs => matchTs2 (c :: cs) || hasTsPat cs

theorem matchTs2_app {x : List Char} (h : matchTs2 x = true) (y : List Char) :
    matchTs2 (x ++ y) = true := by
  match x with
  | [] => simp [matchTs2] at h
  | [a] => simp [matchTs2] at h
  | [a, b] => simp [matchTs2] at h
  | [a, b, c] => simp [matchTs2] at h
  | [a, b, c, d] => simp [matchTs2] at h
  | a :: b :: c :: d :: e :: t =>
    simp only [matchTs2] at h
    simpa [matchTs2] using h

theorem specTsCore_matchTs2 {m : List Char} (h : specTsCore m = true) :
    matchTs2 m = true := by
  match m with
  | [a, b, c, d, e] =>
    simp only [specTsCore, Bool.and_eq_true, beq_iff_eq] at h
    simp [matchTs2, h.1.1.1.1, h.1.1.1.2, h.1.1.2, h.1.2, h.2]
  | [a, b, c, d, e, f, g, h'] =>
    simp only [specTsCore, Bool.and_eq_true, beq_iff_eq] at h
    simp [matchTs2, h.1.1.1.1.1.1.1, h.1.1.1.1.1.1.2, h.1.1.1.1.1.2, h.1.1.1.1.2,
      h.1.1.1.2]
  | [] => simp [specTsCore] at h
  | [a] => simp [specTsCore] at h
  | [a, b] => simp [specTsCore] at h
  | [a, b, c] => simp [specTsCore] at h
  | [a, b, c, d] => simp [specTsCore] at h
  | [a, b, c, d, e, f] => simp [specTsCore] at h
  | [a, b, c, d, e, f, g] => simp [specTsCore] at h
  | a :: b :: c :: d :: e :: f :: g :: h' :: i :: t => simp [specTsCore] at h

/-- A spec-shaped timestamp line is matched by the code's timestamp
regular expression, hence dropped. -/
theorem specTsLineB_imp_ts2 {l : List Char} (h : specTsLineB l = true) :
    matchTs2 l = true := by
  simp only [specTsLineB, Bool.or_eq_true, Bool.and_eq_true] at h
  rcases h with ⟨hc, _⟩ | ⟨hc, _⟩
  · have := matchTs2_app (specTsCore_matchTs2 hc) (l.drop 5)
    rwa [List.take_append_drop] at this
  · have := matchTs2_app (specTsCore_matchTs2 hc) (l.drop 8)
    rwa [List.take_append_drop] at this

theorem specTsLineB_dropped {l : List Char} (h : specTsLineB l = true) :
    vttKeep l = false := by
  simp [vttKeep, specTsLineB_imp_ts2 h]

theorem specHeaderLineB_dropped {l : List Char} (h : specHeaderLineB l = true) :
    vttKeep l = false := by
  simp only [specHeaderLineB] at h
  simp [vttKeep, h]

theorem arrow_dropped : vttKeep arrowLine = false := by decide

theorem empty_dropped : vttKeep [] = false := by decide

/-- The code's filter coincides with the spec's text-line class. -/
theorem vttKeep_eq_spec (L : List Char) : vttKeep L = specTextLineB L := by
  cases h2 : matchTs2 L with
  | true => simp [vttKeep, specTextLineB, h2]
  | false =>
    have h3 : matchTs3 L = false := by
      cases h3 : matchTs3 L with
      | false => rfl
      | true => rw [matchTs3_imp_ts2 h3] at h2; cases h2
    simp [vttKeep, specTextLineB, h2, h3]

theorem hasTsPat_app_sp {a r : List Char} (ha : hasTsPat a = false)
    (hr : hasTsPat r = false) : hasTsPat (a ++ ' ' :: r) = false := by
  induction a with
  | nil =>
    simp only [List.nil_append, hasTsPat, Bool.or_eq_false_iff]
    exact ⟨matchTs2_sp1 r, hr⟩
  | cons c a' ih =>
    simp only [hasTsPat, Bool.or_eq_false_iff] at ha
    simp only [List.cons_append, hasTsPat, Bool.or_eq_false_iff]
    refine ⟨?_, ih ha.2⟩
    have := matchTs2_app_sp (a := c :: a') ha.1 r
    simpa using this

theorem hasTsPat_join :
    ∀ {parts : List (List Char)}, (∀ L ∈ parts, hasTsPat L = false) →
      hasTsPat (List.intercalate [' '] parts) = false := by
  intro parts
  induction parts with
  | nil => intro _; rw [intercalate_nil]; rfl
  | cons p t ih =>
    intro h
    cases t with
    | nil => rw [intercalate_single]; exact h p (by simp)
    | cons q t' =>
      rw [intercalate_cons2, List.append_assoc, List.singleton_append]
      exact hasTsPat_app_sp (h p (by simp)) (ih (fun L hL => h L (by simp [hL])))

/-- **C5.** On a WebVTT document made of a header line, spec-shaped cue
timestamp lines, pure cue-arrow lines, blank lines and text lines, the
WebVTT branch of the caption parser returns exactly the text lines, in
order, joined by single spaces; and if the text lines contain no
digits-colon pattern then neither does the output. -/
theorem vtt_branch_on_structured_doc (ls : List (List Char))
    (hnl : ∀ l ∈ ls, '\n' ∉ l) (hne : ls ≠ [])
    (_hcls : ∀ l ∈ ls, specHeaderLineB (pyStrip l) = true ∨
      specTsLineB (pyStrip l) = true ∨ pyStrip l = arrowLine ∨
      pyStrip l = [] ∨ specTextLineB (pyStrip l) = true) :
    parseVtt (List.intercalate ['\n'] ls) =
      List.intercalate [' '] ((ls.map pyStrip).filter specTextLineB) ∧
    ((∀ L ∈ (ls.map pyStrip).filter specTextLineB, hasTsPat L = false) →
      hasTsPat (parseVtt (List.intercalate ['\n'] ls)) = false) := by
  have hmain : parseVtt (List.intercalate ['\n'] ls) =
      List.intercalate [' '] ((ls.map pyStrip).filter specTextLineB) := by
    unfold parseVtt
    rw [split_nl_intercalate hnl hne]
    rw [show vttKeep = specTextLineB from funext vttKeep_eq_spec]
  refine ⟨hmain, fun htext => ?_⟩
  rw [hmain]
  exact hasTsPat_join htext

def vttSample : List (List Char) :=
  ["WEBVTT".data, "00:00:01.000 --> 00:00:04.000".data, "Hello world".data,
   "00:05 --> 00:07".data, "-->".data, "".data, "Goodbye everyone".data]

/-- Witness for C5 on a concrete seven-line WebVTT document. -/
theorem vtt_branch_on_structured_doc_witness :
    parseVtt (List.intercalate ['\n'] vttSample) = "Hello world Goodbye everyone".data ∧
    hasTsPat (parseVtt (List.intercalate ['\n'] vttSample)) = false := by
  have h := vtt_branch_on_structured_doc vttSample (by decide) (by decide) (by decide)
  exact ⟨h.1.trans (by decide), h.2 (by decide)⟩

/-! ## Orchestrator (`process_youtube_url`, `youtube_service_fixed.py`
lines 789-898)

The metadata dictionary is modelled by the fields the code reads
(`title`, `author`, `video_id`, `source_url`); the remaining info fields
(`length_seconds`, `views`, `publish_date`, `thumbnail_url`) are carried
to the caller unread and are omitted. -/

structure PyMeta where
  title : Option (List Char)
  author : Option (List Char)
  video_id : Option (List Char)
  source_url : Option (List Char)
deriving DecidableEq

def unknownS : List Char := "Unknown".data

def PyMeta.getTitle (m : PyMeta) : List Char := m.title.getD unknownS

def PyMeta.getAuthor (m : PyMeta) : List Char := m.author.getD unknownS

/-- Observable outcome of the `ydl.extract_info` call in the metadata
phase of `process_youtube_url`: it raises, returns a falsy value, or
returns an info dictionary (whose `title`/`uploader`/`id` entries may
themselves be missing). -/
inductive MetaBehavior
  | raises
  | noInfo
  | info (title author vid : Option (List Char))
deriving DecidableEq

/-- The `metadata` variable after the try/except block (lines 799-836).
`none` models the Python variable still holding `None`: the except
branch installs a default record, but a falsy `info` leaves the initial
`None` in place. -/
def metaPhase : MetaBehavior → List Char → Option PyMeta
  | .raises, url => some ⟨some unknownS, none, none, some url⟩
  | .noInfo, _ => none
  | .info t a v, url => some ⟨some (t.getD unknownS), some (a.getD unknownS), v, some url⟩

inductive PyError
  | attributeError
deriving DecidableEq

/-- The synthesized stub of lines 896-898. -/
def stubText (m : PyMeta) : List Char :=
  "Title: ".data ++ m.getTitle ++ "\nAuthor: ".data ++ m.getAuthor ++
  "\n\nUnable to extract content from this YouTube video.".data

/-- The top-level acceptance gate `transcript and len(transcript) > 500`. -/
def accept500 : Option (List Char) → Bool
  | some t => !t.isEmpty && decide (500 < t.length)
  | none => false

/-- Strategy section of `process_youtube_url` (lines 849-898): the four
method results in the code's priority order, the `> 500` acceptance
gate after each, the partial-content chain, and the synthesized stub.
The second component counts how many of the four methods were invoked
before returning. -/
def runStrategies (s1 s2 s3 s4 : Option (List Char)) (m : PyMeta) :
    (Option (List Char) × PyMeta) × Nat :=
  if accept500 s1 then ((s1, m), 1)
  else if accept500 s2 then ((s2, m), 2)
  else if accept500 s3 then ((s3, m), 3)
  else if accept500 s4 then ((s4, m), 4)
  else if pyTruthy s1 then ((s1, m), 4)
  else if pyTruthy s2 then ((s2, m), 4)
  else if pyTruthy s3 then ((s3, m), 4)
  else if pyTruthy s4 then ((s4, m), 4)
  else ((some (stubText m), m), 4)

/-- `process_youtube_url` (lines 789-898).  `extractId` is the observable
result of `self.extract_video_id(video_url)`; `s1..s4` are the results
of the four acquisition methods in source order (transcript API, proxied
transcript API, enhanced yt-dlp, Invidious), each of which catches its
own exceptions and returns text or `None`. -/
def process_youtube_url (mb : MetaBehavior) (extractId : Option (List Char))
    (s1 s2 s3 s4 : Option (List Char)) (url : List Char) :
    Except PyError (Option (List Char) × PyMeta) :=
  match metaPhase mb url with
  | none => .error .attributeError
  | some metadata =>
    if pyTruthy metadata.video_id then .ok (runStrategies s1 s2 s3 s4 metadata).1
    else if pyTruthy extractId then .ok (runStrategies s1 s2 s3 s4 metadata).1
    else .ok (none, metadata)

theorem accept500_some_iff (u : List Char) : accept500 (some u) = true ↔ 500 < u.length := by
  simp only [accept500, Bool.and_eq_true, Bool.not_eq_true', List.isEmpty_eq_false,
    decide_eq_true_eq]
  constructor
  · exact And.right
  · intro h
    refine ⟨?_, h⟩
    intro hnil
    rw [hnil] at h
    simp at h

/-- **C1.** (code bug) When the metadata backend returns a falsy info
value without raising, `metadata` is still `None` when
`metadata.get('video_id')` runs, and `process_youtube_url` raises an
`AttributeError` instead of returning a `(text-or-None, metadata)`
pair. -/
theorem process_noInfo_raises (e s1 s2 s3 s4 : Option (List Char)) (url : List Char) :
    process_youtube_url MetaBehavior.noInfo e s1 s2 s3 s4 url =
      Except.error PyError.attributeError := rfl

/-- **C2.** A strategy's output ends the run exactly when its length
exceeds 500 characters: a longer-than-500 result from any of the four
methods is returned as-is with no later method invoked, while a result
of at most 500 characters lets the run continue to the next method;
through `process_youtube_url` the accepted text is the returned
transcript. -/
theorem strategy_acceptance_gate (s2 s3 s4 : Option (List Char)) (m : PyMeta)
    {t : List Char} (ht : 500 < t.length) :
    runStrategies (some t) s2 s3 s4 m = ((some t, m), 1) ∧
    (∀ s1, accept500 s1 = false →
      runStrategies s1 (some t) s3 s4 m = ((some t, m), 2)) ∧
    (∀ s1 s2', accept500 s1 = false → accept500 s2' = false →
      runStrategies s1 s2' (some t) s4 m = ((some t, m), 3)) ∧
    (∀ s1 s2' s3', accept500 s1 = false → accept500 s2' = false →
      accept500 s3' = false →
      runStrategies s1 s2' s3' (some t) m = ((some t, m), 4)) ∧
    (∀ u : List Char, (runStrategies (some u) s2 s3 s4 m).2 = 1 ↔ 500 < u.length) ∧
    (∀ u : List Char, u.length ≤ 500 → 2 ≤ (runStrategies (some u) s2 s3 s4 m).2) ∧
    (∀ tt aa vv e url, vv ≠ [] →
      process_youtube_url (MetaBehavior.info tt aa (some vv)) e (some t) s2 s3 s4 url =
        Except.ok (some t, ⟨some (tt.getD unknownS), some (aa.getD unknownS),
          some vv, some url⟩)) := by
  have hacc : accept500 (some t) = true := (accept500_some_iff t).2 ht
  refine ⟨?_, ?_, ?_, ?_, ?_, ?_, ?_⟩
  · unfold runStrategies
    rw [if_pos hacc]
  · intro s1 h1
    unfold runStrategies
    rw [if_neg (by simp [h1]), if_pos hacc]
  · intro s1 s2' h1 h2
    unfold runStrategies
    rw [if_neg (by simp [h1]), if_neg (by simp [h2]), if_pos hacc]
  · intro s1 s2' s3' h1 h2 h3
    unfold runStrategies
    rw [if_neg (by simp [h1]), if_neg (by simp [h2]), if_neg (by simp [h3]),
      if_pos hacc]
  · intro u
    constructor
    · intro hcount
      by_contra hlen
      have hu : accept500 (some u) = false := by
        cases hx : accept500 (some u) with
        | false => rfl
        | true => exact absurd ((accept500_some_iff u).1 hx) hlen
      unfold runStrategies at hcount
      rw [if_neg (by simp [hu])] at hcount
      split at hcount <;> simp_all
      split at hcount <;> simp_all
      split at hcount <;> simp_all
      split at hcount <;> simp_all
      split at hcount <;> simp_all
      split at hcount <;> simp_all
      split at hcount <;> simp_all
    · intro hlen
      unfold runStrategies
      rw [if_pos ((accept500_some_iff u).2 hlen)]
  · intro u hlen
    have hu : accept500 (some u) = false := by
      cases hx : accept500 (some u) with
      | false => rfl
      | true =>
        have := (accept500_some_iff u).1 hx
        omega
    unfold runStrategies
    rw [if_neg (by simp [hu])]
    split
    · omega
    · split
      · omega
      · split
        · omega
        · split <;> [omega; skip]
          split <;> [omega; skip]
          split <;> [omega; skip]
          split <;> omega
  · intro tt aa vv e url hvv
    unfold process_youtube_url
    simp only [metaPhase]
    rw [if_pos (by simp [pyTruthy, hvv])]
    unfold runStrategies
    rw [if_pos hacc]

def metaSample : PyMeta :=
  ⟨some "A video".data, some "An author".data, some "abcdefghijk".data,
   some "https://youtu.be/abcdefghijk".data⟩

/-- Witness for C2: a 600-character result from method 1 is returned
with the later methods never invoked, and a 400-character result does
not end the run. -/
theorem strategy_acceptance_gate_witness :
    runStrategies (some (List.replicate 600 'a')) none none none metaSample =
      ((some (List.replicate 600 'a'), metaSample), 1) ∧
    2 ≤ (runStrategies (some (List.replicate 400 'b')) none none none metaSample).2 := by
  have h := strategy_acceptance_gate none none none metaSample
    (t := List.replicate 600 'a') (by rw [List.length_replicate]; omega)
  exact ⟨h.1, h.2.2.2.2.2.1 (List.replicate 400 'b')
    (by rw [List.length_replicate]; omega)⟩

/-- The partial-content chain of lines 881-893: the first truthy
candidate in priority order. -/
def firstTruthy : List (Option (List Char)) → Option (List Char)
  | [] => none
  | s :: rest => if pyTruthy s then s else firstTruthy rest

set_option maxRecDepth 4000 in
/-- **C3 counterexample.** With a 50-character result from strategy 1 and
a 400-character result from strategy 4 (none passing the gate), the
orchestrator returns the 50-character text of strategy 1, not the longer
400-character text. -/
theorem partial_priority_counterexample :
    (runStrategies (some (List.replicate 50 'a')) none none
        (some (List.replicate 400 'b')) metaSample).1.1 =
      some (List.replicate 50 'a') ∧
    (runStrategies (some (List.replicate 50 'a')) none none
        (some (List.replicate 400 'b')) metaSample).1.1 ≠
      some (List.replicate 400 'b') := by
  constructor
  · rfl
  · decide

/-- **C3 amended.** If no strategy's output passes the 500-character
gate, `process_youtube_url` falls back to the first truthy candidate in
strategy priority order (not the longest), and to the synthesized stub
when every candidate is falsy. -/
theorem partial_fallback_is_priority (s1 s2 s3 s4 : Option (List Char)) (m : PyMeta)
    (h1 : accept500 s1 = false) (h2 : accept500 s2 = false)
    (h3 : accept500 s3 = false) (h4 : accept500 s4 = false) :
    (runStrategies s1 s2 s3 s4 m).1.1 =
      match firstTruthy [s1, s2, s3, s4] with
      | some t => some t
      | none => some (stubText m) := by
  have hshape : ∀ s : Option (List Char), pyTruthy s = true → ∃ t, s = some t := by
    intro s hs
    cases s with
    | none => simp [pyTruthy] at hs
    | some t => exact ⟨t, rfl⟩
  by_cases p1 : pyTruthy s1 = true
  · obtain ⟨t1, rfl⟩ := hshape s1 p1
    simp [runStrategies, firstTruthy, h1, h2, h3, h4, p1]
  · by_cases p2 : pyTruthy s2 = true
    · obtain ⟨t2, rfl⟩ := hshape s2 p2
      simp [runStrategies, firstTruthy, h1, h2, h3, h4, p1, p2]
    · by_cases p3 : pyTruthy s3 = true
      · obtain ⟨t3, rfl⟩ := hshape s3 p3
        simp [runStrategies, firstTruthy, h1, h2, h3, h4, p1, p2, p3]
      · by_cases p4 : pyTruthy s4 = true
        · obtain ⟨t4, rfl⟩ := hshape s4 p4
          simp [runStrategies, firstTruthy, h1, h2, h3, h4, p1, p2, p3, p4]
        · simp [runStrategies, firstTruthy, h1, h2, h3, h4, p1, p2, p3, p4]

set_option maxRecDepth 4000 in
/-- Witness for the amended C3 at the counterexample's input. -/
theorem partial_fallback_is_priority_witness :
    (runStrategies (some (List.replicate 50 'a')) none none
        (some (List.replicate 400 'b')) metaSample).1.1 =
      some (List.replicate 50 'a') := by
  have h := partial_fallback_is_priority (some (List.replicate 50 'a')) none none
    (some (List.replicate 400 'b')) metaSample (by decide) rfl rfl (by decide)
  exact h.trans (by decide)

theorem pyIn_append_right {p y : List Char} (x : List Char) (h : pyIn p y = true) :
    pyIn p (x ++ y) = true := by
  obtain ⟨u, v, rfl⟩ := (pyIn_iff p y).1 h
  exact (pyIn_iff p _).2 ⟨x ++ u, v, by simp⟩

/-- The metadata record built by the successful info path. -/
def builtMeta (tt aa : Option (List Char)) (vv url : List Char) : PyMeta :=
  ⟨some (tt.getD unknownS), some (aa.getD unknownS), some vv, some url⟩

/-- **C9.** If every strategy returns `None` or empty text, then
`process_youtube_url` returns as transcript a stub string containing the
literal substrings `"Title:"` and `"Unable to extract content"` together
with the metadata's title and author. -/
theorem all_strategies_empty_stub (tt aa : Option (List Char)) (vv : List Char)
    (e : Option (List Char)) (url : List Char) (s1 s2 s3 s4 : Option (List Char))
    (hvv : vv ≠ [])
    (hs1 : s1 = none ∨ s1 = some []) (hs2 : s2 = none ∨ s2 = some [])
    (hs3 : s3 = none ∨ s3 = some []) (hs4 : s4 = none ∨ s4 = some []) :
    process_youtube_url (MetaBehavior.info tt aa (some vv)) e s1 s2 s3 s4 url =
      Except.ok (some (stubText (builtMeta tt aa vv url)), builtMeta tt aa vv url) ∧
    pyIn "Title:".data (stubText (builtMeta tt aa vv url)) = true ∧
    pyIn "Unable to extract content".data (stubText (builtMeta tt aa vv url)) = true ∧
    pyIn (builtMeta tt aa vv url).getTitle (stubText (builtMeta tt aa vv url)) = true ∧
    pyIn (builtMeta tt aa vv url).getAuthor (stubText (builtMeta tt aa vv url)) = true := by
  have ha : ∀ s : Option (List Char), (s = none ∨ s = some []) →
      accept500 s = false ∧ pyTruthy s = false := by
    rintro s (rfl | rfl) <;> exact ⟨rfl, rfl⟩
  obtain ⟨ha1, hp1⟩ := ha s1 hs1
  obtain ⟨ha2, hp2⟩ := ha s2 hs2
  obtain ⟨ha3, hp3⟩ := ha s3 hs3
  obtain ⟨ha4, hp4⟩ := ha s4 hs4
  refine ⟨?_, ?_, ?_, ?_, ?_⟩
  · show (if pyTruthy (some vv) then _ else _) = _
    rw [if_pos (by simp [pyTruthy, hvv])]
    unfold runStrategies
    rw [if_neg (by simp [ha1]), if_neg (by simp [ha2]), if_neg (by simp [ha3]),
      if_neg (by simp [ha4]), if_neg (by simp [hp1]), if_neg (by simp [hp2]),
      if_neg (by simp [hp3]), if_neg (by simp [hp4])]
    rfl
  · refine pyIn_of_isPrefixB ?_
    have h0 : isPrefixB "Title:".data "Title: ".data = true := by decide
    exact isPrefixB_of_long (isPrefixB_of_long (isPrefixB_of_long (isPrefixB_of_long h0)))
  · exact pyIn_append_right _ (by decide)
  · refine (pyIn_iff _ _).2 ⟨"Title: ".data,
      "\nAuthor: ".data ++ (builtMeta tt aa vv url).getAuthor ++
        "\n\nUnable to extract content from this YouTube video.".data, ?_⟩
    simp [stubText, List.append_assoc]
  · refine (pyIn_iff _ _).2
      ⟨"Title: ".data ++ (builtMeta tt aa vv url).getTitle ++ "\nAuthor: ".data,
        "\n\nUnable to extract content from this YouTube video.".data, ?_⟩
    simp [stubText, List.append_assoc]

/-- Witness for C9 on concrete metadata with all four strategies empty. -/
theorem all_strategies_empty_stub_witness :
    process_youtube_url
        (MetaBehavior.info (some "My video".data) none (some "abcdefghijk".data))
        none none (some []) none none "https://youtu.be/abcdefghijk".data =
      Except.ok
        (some (stubText (builtMeta (some "My video".data) none "abcdefghijk".data
          "https://youtu.be/abcdefghijk".data)),
         builtMeta (some "My video".data) none "abcdefghijk".data
          "https://youtu.be/abcdefghijk".data) ∧
    pyIn "Unable to extract content".data
      (stubText (builtMeta (some "My video".data) none "abcdefghijk".data
        "https://youtu.be/abcdefghijk".data)) = true := by
  have h := all_strategies_empty_stub (some "My video".data) none "abcdefghijk".data
    none "https://youtu.be/abcdefghijk".data none (some []) none none
    (by decide) (Or.inl rfl) (Or.inr rfl) (Or.inl rfl) (Or.inl rfl)
  exact ⟨h.1, h.2.2.1⟩

/-! ## `transcribe_audio` (`youtube_service_fixed.py` lines 273-342)

The filesystem is the list of existing paths, threaded explicitly;
`os.remove` on an existing file is modelled as succeeding
(temporary-file mechanics beyond create/delete are outside the spec's
scope §1). -/

structure FS where
  files : List (List Char)
deriving DecidableEq

def FS.existsFile (fs : FS) (p : List Char) : Bool := fs.files.any (· == p)

def FS.removeFile (fs : FS) (p : List Char) : FS :=
  ⟨fs.files.filter (fun q => !(q == p))⟩

/-- Observable behaviour of the transcription backends inside the try
block: whisper available (result with text / result without text /
raises), or whisper missing (ImportError) with the OpenAI fallback
(missing API key / text / result without a text attribute / raises). -/
inductive TranscribeBackend
  | whisperText (t : List Char)
  | whisperNoText
  | whisperRaises
  | importErrNoKey
  | importErrText (t : List Char)
  | importErrNoAttr
  | importErrRaises

/-- `transcribe_audio`: the body computes the result — every exceptional
path is caught and becomes `None` — and the `finally` block deletes the
audio file if it exists. -/
def transcribe_audio (b : TranscribeBackend) (fs : FS) (audio_path : List Char) :
    Option (List Char) × FS :=
  let result : Option (List Char) :=
    match b with
    | .whisperText t => some t
    | .importErrText t => some t
    | _ => none
  let fs' := if fs.existsFile audio_path then fs.removeFile audio_path else fs
  (result, fs')

/-- **C7.** After `transcribe_audio` completes — whether transcription
succeeded, returned `None`, or an internal step raised — the temporary
audio file at the given path no longer exists on the filesystem. -/
theorem transcribe_audio_cleans_up (b : TranscribeBackend) (fs : FS) (p : List Char) :
    ((transcribe_audio b fs p).2).existsFile p = false := by
  unfold transcribe_audio
  by_cases h : fs.existsFile p = true
  · rw [if_pos h]
    unfold FS.existsFile FS.removeFile
    cases hx : (List.filter (fun q => !(q == p)) fs.files).any (fun x => x == p) with
    | false => rfl
    | true =>
      obtain ⟨q, hq, hqp⟩ := List.any_eq_true.1 hx
      obtain ⟨_, hq2⟩ := List.mem_filter.1 hq
      rw [hqp] at hq2
      cases hq2
  · rw [if_neg h]
    simpa using h

/-! ## The superseded pytube implementation
(`youtube_service (copy).py`) -/

def truncNote : List Char := "... [truncated due to length]".data

/-- `summarize_transcript` (copy lines 149-184).  `llm` is the
observable outcome of the chat-completion call: `some summary`, or
`none` when the call raises (the except branch truncates instead). -/
def summarize_transcript (llm : Option (List Char)) (transcript : List Char)
    (max_length : Nat) : List Char :=
  if transcript.length ≤ max_length then transcript
  else
    match llm with
    | some summary => summary
    | none => transcript.take max_length ++ truncNote

/-- `process_youtube_url` of the pytube implementation (copy lines
447-513), with each acquisition step's observable result as a
parameter: `audio_file` (download_audio), `transcribed`
(transcribe_audio), `captions` (get_captions), `alt`
(get_youtube_transcript_api). -/
def copyProcess (m : PyMeta) (video_id : Option (List Char))
    (audio_file : Option (List Char)) (transcribed : Option (List Char))
    (captions : Option (List Char)) (alt : Option (List Char))
    (llm : Option (List Char)) : Option (List Char) × PyMeta :=
  if !(pyTruthy video_id) then (none, m)
  else if pyTruthy audio_file && pyTruthy transcribed then
    (some (summarize_transcript llm (transcribed.getD []) 5000), m)
  else if pyTruthy captions then
    (some (summarize_transcript llm (captions.getD []) 5000), m)
  else if pyTruthy alt then
    (some (summarize_transcript llm (alt.getD []) 5000), m)
  else (none, m)

/-- **C10.** `summarize_transcript` returns its input unchanged exactly
when it has at most `max_length = 5000` characters; consequently an
accepted transcription of at most 5000 characters flows through the
pytube orchestrator to the caller verbatim, while a longer one is
replaced by the model summary, or by a truncation of the original when
summarization raises. -/
theorem summarize_passthrough (llm captions alt : Option (List Char)) {t : List Char}
    (h : t.length ≤ 5000) :
    summarize_transcript llm t 5000 = t ∧
    (∀ u : List Char, 5000 < u.length →
      summarize_transcript llm u 5000 =
        (match llm with
         | some summary => summary
         | none => u.take 5000 ++ truncNote)) ∧
    (∀ m vid af, pyTruthy vid = true → af ≠ [] → t ≠ [] →
      copyProcess m vid (some af) (some t) captions alt llm = (some t, m)) := by
  have h1 : summarize_transcript llm t 5000 = t := by
    unfold summarize_transcript
    rw [if_pos h]
  refine ⟨h1, ?_, ?_⟩
  · intro u hu
    unfold summarize_transcript
    rw [if_neg (by omega)]
  · intro m vid af hvid haf ht
    unfold copyProcess
    rw [if_neg (by simp [hvid])]
    rw [if_pos (by simp [pyTruthy, haf, ht])]
    show (some (summarize_transcript llm t 5000), m) = (some t, m)
    rw [h1]

/-- Witness for C10: a 16-character transcription is returned verbatim. -/
theorem summarize_passthrough_witness :
    summarize_transcript none "short transcript".data 5000 = "short transcript".data ∧
    copyProcess metaSample (some "abcdefghijk".data) (some "audio.mp3".data)
        (some "short transcript".data) none none none =
      (some "short transcript".data, metaSample) := by
  have h := summarize_passthrough none none none (t := "short transcript".data)
    (by decide)
  exact ⟨h.1, h.2.2 metaSample (some "abcdefghijk".data) "audio.mp3".data
    (by decide) (by decide) (by decide)⟩

/-! ## Description fallbacks (C4) -/

/-- Fields of the yt-dlp info dict read by Phase C. -/
structure YdlInfo where
  title : Option (List Char)
  description : Option (List Char)
deriving DecidableEq

/-- STEP 4 of `get_full_transcript_with_enhanced_yt_dlp` (lines
495-508): the title+description composite when the gate passes, the
minimal stub otherwise. -/
def ytdlpDescFallback (info : Option YdlInfo) (metadata : PyMeta) : List Char :=
  let title := match info with
    | some i => i.title.getD []
    | none => metadata.title.getD []
  let description := match info with
    | some i => i.description.getD []
    | none => []
  if title ≠ [] ∧ description ≠ [] ∧ 100 < description.length then
    "Title: ".data ++ title ++ "\n\nDescription: ".data ++ description
  else
    stubText metadata

/-- STEP 3 of the Invidious strategy (lines 711-717): the description
fallback against the video-details response; `none` models falling
through to the next (instance, identity) attempt. -/
def invidiousDescFallback (dataTitle : Option (List Char))
    (dataDescription : Option (List Char)) : Option (List Char) :=
  match dataDescription with
  | some d =>
    if d ≠ [] ∧ 200 < d.length then
      some ("Title: ".data ++ dataTitle.getD unknownS ++ "\n\nDescription: ".data ++ d)
    else none
  | none => none

def desc150 : List Char := List.replicate 150 'x'

set_option maxRecDepth 8000 in
/-- **C4 counterexample.** A 150-character description passes the yt-dlp
Phase C gate (which is `> 100`, not roughly 200): the title+description
composite is returned instead of the minimal stub the claim requires. -/
theorem ytdlp_desc_gate_counterexample :
    ytdlpDescFallback (some ⟨some ['T'], some desc150⟩) metaSample =
      "Title: ".data ++ ['T'] ++ "\n\nDescription: ".data ++ desc150 ∧
    ytdlpDescFallback (some ⟨some ['T'], some desc150⟩) metaSample ≠
      stubText metaSample := by
  constructor
  · rfl
  · decide

/-- **C4 amended.** The yt-dlp Phase C fallback returns the composite
exactly when the (non-empty) description exceeds 100 characters, while
the mirror-API fallback returns it exactly when the description exceeds
200 characters; below the respective gates they return the minimal stub
or nothing. -/
theorem desc_fallback_gates (t d : List Char) (m : PyMeta) (ti : Option (List Char))
    (ht : t ≠ []) (hd : d ≠ []) :
    (100 < d.length →
      ytdlpDescFallback (some ⟨some t, some d⟩) m =
        "Title: ".data ++ t ++ "\n\nDescription: ".data ++ d) ∧
    (d.length ≤ 100 → ytdlpDescFallback (some ⟨some t, some d⟩) m = stubText m) ∧
    (200 < d.length →
      invidiousDescFallback ti (some d) =
        some ("Title: ".data ++ ti.getD unknownS ++ "\n\nDescription: ".data ++ d)) ∧
    (d.length ≤ 200 → invidiousDescFallback ti (some d) = none) := by
  refine ⟨?_, ?_, ?_, ?_⟩
  · intro hlen
    show (if t ≠ [] ∧ d ≠ [] ∧ 100 < d.length then
        "Title: ".data ++ t ++ "\n\nDescription: ".data ++ d
      else stubText m) = "Title: ".data ++ t ++ "\n\nDescription: ".data ++ d
    rw [if_pos ⟨ht, hd, hlen⟩]
  · intro hlen
    show (if t ≠ [] ∧ d ≠ [] ∧ 100 < d.length then
        "Title: ".data ++ t ++ "\n\nDescription: ".data ++ d
      else stubText m) = stubText m
    rw [if_neg (by simp only [not_and]; intro _ _; omega)]
  · intro hlen
    show (if d ≠ [] ∧ 200 < d.length then
        some ("Title: ".data ++ ti.getD unknownS ++ "\n\nDescription: ".data ++ d)
      else none) =
      some ("Title: ".data ++ ti.getD unknownS ++ "\n\nDescription: ".data ++ d)
    rw [if_pos ⟨hd, hlen⟩]
  · intro hlen
    show (if d ≠ [] ∧ 200 < d.length then
        some ("Title: ".data ++ ti.getD unknownS ++ "\n\nDescription: ".data ++ d)
      else none) = none
    rw [if_neg (by simp only [not_and]; intro _; omega)]

set_option maxRecDepth 8000 in
/-- Witness for the amended C4 at a 150-character description. -/
theorem desc_fallback_gates_witness :
    ytdlpDescFallback (some ⟨some ['T'], some desc150⟩) metaSample =
      "Title: ".data ++ ['T'] ++ "\n\nDescription: ".data ++ desc150 ∧
    invidiousDescFallback none (some desc150) = none := by
  have h := desc_fallback_gates ['T'] desc150 metaSample none (by decide) (by decide)
  exact ⟨h.1 (by rw [show desc150.length = 150 from by decide]; omega),
    h.2.2.2 (by rw [show desc150.length = 150 from by decide]; omega)⟩

/-! ## `extract_video_id` (`youtube_service_fixed.py` lines 738-787) -/

def ytbeSep : List Char := "youtu.be/".data

def watchPat : List Char := "youtube.com/watch".data

def veqSep : List Char := "v=".data

def embedPat : List Char := "youtube.com/embed/".data

def embedSep : List Char := "embed/".data

def vslashPat : List Char := "youtube.com/v/".data

def vslashSep : List Char := "v/".data

structure ExtractResult where
  out : Option (List Char)
  usedFallback : Bool
deriving DecidableEq

/-- Python `ls[1]`, written with a default: every use below is guarded
by the containment check that guarantees the element exists. -/
def pyIdx1 (ls : List (List Char)) : List Char := ls.getD 1 []

/-- Python `ls[0]`; `split` always returns a non-empty list. -/
def pyIdx0 (ls : List (List Char)) : List Char := ls.getD 0 []

/-- `extract_video_id`.  `fb` is the observable result of the guarded
yt-dlp fallback of lines 768-781 (which catches its own errors); the
pair records whether that external fallback was invoked. -/
def extract_video_id (fb : Option (List Char)) (url : List Char) : ExtractResult :=
  if pyIn ytbeSep url then
    ⟨some (pyIdx0 (splitOnSub ['&']
      (pyIdx0 (splitOnSub ['?'] (pyIdx1 (splitOnSub ytbeSep url)))))), false⟩
  else if pyIn watchPat url then
    if pyIn veqSep url then
      ⟨some (pyIdx0 (splitOnSub ['&'] (pyIdx1 (splitOnSub veqSep url)))), false⟩
    else ⟨fb, true⟩
  else if pyIn embedPat url then
    ⟨some (pyIdx0 (splitOnSub ['&']
      (pyIdx0 (splitOnSub ['?'] (pyIdx1 (splitOnSub embedSep url)))))), false⟩
  else if pyIn vslashPat url then
    ⟨some (pyIdx0 (splitOnSub ['&']
      (pyIdx0 (splitOnSub ['?'] (pyIdx1 (splitOnSub vslashSep url)))))), false⟩
  else ⟨fb, true⟩

set_option maxRecDepth 8000 in
/-- **C8 counterexample.** On the supported watch shape with an
11-character id followed by a `?...` query suffix, `extract_video_id`
does not strip the suffix: the watch branch splits only on `&`. -/
theorem extract_id_counterexample :
    (extract_video_id none "https://www.youtube.com/watch?v=ABCDEFGHIJK?t=10".data).out =
      some "ABCDEFGHIJK?t=10".data ∧
    (extract_video_id none "https://www.youtube.com/watch?v=ABCDEFGHIJK?t=10".data).out ≠
      some "ABCDEFGHIJK".data := by
  constructor
  · decide
  · decide

/-! ### Helper lemmas for the amended C8 -/

theorem pyIn_part (u p v : List Char) : pyIn p (u ++ p ++ v) = true :=
  (pyIn_iff p _).2 ⟨u, v, rfl⟩

theorem pyIn_false_of_bad {p x : List Char} {bad : Char → Bool}
    (hp : p.any bad = true) (hx : ∀ c ∈ x, bad c = false) : pyIn p x = false := by
  cases hq : pyIn p x with
  | false => rfl
  | true =>
    obtain ⟨c, hcp, hcb⟩ := List.any_eq_true.1 hp
    rw [hx c (mem_of_pyIn hq hcp)] at hcb
    cases hcb

/-- No occurrence of `sep` starts strictly inside `a` when `a ++ b` is
scanned. -/
def prefFree (sep a b : List Char) : Prop :=
  ∀ i, i < a.length → isPrefixB sep (a.drop i ++ b) = false

theorem prefFree_of_bad {sep a b : List Char} {bad : Char → Bool}
    (hsep : sep.any bad = true) (ha : ∀ c ∈ a, bad c = false)
    (hb : ∀ c, b.head? = some c → c ∉ sep) : prefFree sep a b := by
  intro i hi
  cases hq : isPrefixB sep (a.drop i ++ b) with
  | false => rfl
  | true =>
    exfalso
    by_cases hlen : sep.length ≤ (a.drop i).length
    · have := isPrefixB_take_of_app hq
      rw [List.take_of_length_le hlen] at this
      obtain ⟨r, hr⟩ := (isPrefixB_iff _ _).1 this
      obtain ⟨c, hcp, hcb⟩ := List.any_eq_true.1 hsep
      have hca : c ∈ a := List.drop_subset i a (by rw [hr]; simp [hcp])
      rw [ha c hca] at hcb
      cases hcb
    · push_neg at hlen
      obtain ⟨_, hdrop⟩ := isPrefixB_app_split hq (Nat.le_of_lt hlen)
      cases hd : sep.drop (a.drop i).length with
      | nil =>
        have := congrArg List.length hd
        simp only [List.length_drop, List.length_nil] at this hlen
        omega
      | cons e t' =>
        rw [hd] at hdrop
        cases b with
        | nil => simp [isPrefixB] at hdrop
        | cons c bs =>
          simp only [isPrefixB, Bool.and_eq_true, beq_iff_eq] at hdrop
          have he : e ∈ sep := List.drop_subset _ sep (by rw [hd]; simp)
          rw [hdrop.1] at he
          exact hb c rfl he

/-- `preSeg` distributes over an occurrence-free left part. -/
theorem preSeg_append_free {sep a b : List Char} (h : prefFree sep a b) :
    preSeg sep (a ++ b) = a ++ preSeg sep b := by
  induction a with
  | nil => simp
  | cons c a ih =>
    have h0 : isPrefixB sep (c :: (a ++ b)) = false := by
      have := h 0 (by simp)
      simpa using this
    simp only [List.cons_append, preSeg, List.append_eq]
    rw [if_neg (by simp [h0])]
    rw [ih (fun i hi => by
      have := h (i + 1) (by simp; omega)
      simpa using this)]

theorem preSeg_cons_neg {sep : List Char} {c : Char} (cs : List Char)
    (h : isPrefixB sep (c :: cs) = false) :
    preSeg sep (c :: cs) = c :: preSeg sep cs := by
  simp only [preSeg]
  rw [if_neg (by simp [h])]

theorem isPrefixB_cons_not_mem {sep : List Char} {c : Char} (hne : sep ≠ [])
    (h : c ∉ sep) (s : List Char) : isPrefixB sep (c :: s) = false := by
  cases sep with
  | nil => exact absurd rfl hne
  | cons s0 rest =>
    have : (s0 == c) = false := by
      simp only [beq_eq_false_iff_ne, ne_eq]
      rintro rfl
      exact h (by simp)
    simp [isPrefixB, this]

theorem split_idx0 (sep s : List Char) : pyIdx0 (splitOnSub sep s) = preSeg sep s := by
  obtain ⟨t, ht⟩ := splitOnSub_head sep s
  simp [pyIdx0, ht]

theorem split_idx1 {sep : List Char} (hne : sep ≠ []) {a : List Char}
    (hcl : cleanB sep a = true) (b : List Char) :
    pyIdx1 (splitOnSub sep (a ++ sep ++ b)) = preSeg sep b := by
  rw [split_append_sep hne b hcl]
  obtain ⟨t, ht⟩ := splitOnSub_head sep b
  simp [pyIdx1, ht]

/-- The full `.split('?')[0].split('&')[0]` suffix-stripping pipeline
recovers `id` whether the raw segment is bare, `?`-suffixed or
`&`-suffixed. -/
theorem strip_qm_amp {id : List Char} (hq : '?' ∉ id) (ha : '&' ∉ id) :
    pyIdx0 (splitOnSub ['&'] (pyIdx0 (splitOnSub ['?'] id))) = id ∧
    (∀ Z, pyIdx0 (splitOnSub ['&'] (pyIdx0 (splitOnSub ['?'] (id ++ '?' :: Z)))) = id) ∧
    (∀ Z, pyIdx0 (splitOnSub ['&'] (pyIdx0 (splitOnSub ['?'] (id ++ '&' :: Z)))) = id) := by
  refine ⟨?_, ?_, ?_⟩
  · rw [split_idx0, split_idx0, preSeg_single_no hq, preSeg_single_no ha]
  · intro Z
    rw [split_idx0, split_idx0, preSeg_single_app Z hq, preSeg_single_no ha]
  · intro Z
    have h1 : preSeg ['?'] (id ++ '&' :: Z) = id ++ '&' :: preSeg ['?'] Z := by
      rw [preSeg_append_free (@prefFree_of_bad ['?'] id ('&' :: Z) (fun c => c == '?')
        (by simp)
        (fun c hc => by
          simp only [beq_eq_false_iff_ne, ne_eq]
          rintro rfl
          exact hq hc)
        (fun c hc => by
          simp only [List.head?_cons, Option.some.injEq] at hc
          subst hc
          decide))]
      rw [preSeg_cons_neg Z (isPrefixB_cons_not_mem (by simp) (by decide) Z)]
    rw [split_idx0, split_idx0, h1]
    exact preSeg_single_app (preSeg ['?'] Z) ha

/-- The segment between the shape separator and the first later
occurrence starts with `id` followed by the suffix head. -/
theorem preSeg_sep_of_id {sep : List Char} {bad : Char → Bool} {id : List Char}
    (hsep : sep.any bad = true) (hid : ∀ c ∈ id, bad c = false) :
    preSeg sep id = id ∧
    (∀ (c : Char) (r : List Char), c ∉ sep →
      preSeg sep (id ++ c :: r) = id ++ c :: preSeg sep r) := by
  have hne : sep ≠ [] := by
    rintro rfl
    simp at hsep
  constructor
  · exact preSeg_no_occ (pyIn_false_of_bad hsep hid)
  · intro c r hc
    rw [preSeg_append_free (prefFree_of_bad hsep hid (fun d hd => by
      simp only [List.head?_cons, Option.some.injEq] at hd
      subst hd
      exact hc))]
    rw [preSeg_cons_neg r (isPrefixB_cons_not_mem hne hc _)]

/-- The YouTube video-id alphabet (base64url). -/
def isIdChar (c : Char) : Bool := c.isAlphanum || c = '-' || c = '_'

/-- Characters that may appear in a query suffix: no `.` and no `/`. -/
def isQueryChar (c : Char) : Bool :=
  c.isAlphanum || c = '-' || c = '_' || c = '?' || c = '&' || c = '=' ||
  c = '%' || c = '+'

/-- `.` or `/`: the characters that make the URL patterns recognizable. -/
def dsChar (c : Char) : Bool := c == '.' || c == '/'

theorem idChar_not_ds {c : Char} (h : isIdChar c = true) : dsChar c = false := by
  cases hds : dsChar c with
  | false => rfl
  | true =>
    exfalso
    simp only [dsChar, Bool.or_eq_true, beq_iff_eq] at hds
    rcases hds with rfl | rfl
    · exact absurd h (by decide)
    · exact absurd h (by decide)

theorem queryChar_not_ds {c : Char} (h : isQueryChar c = true) : dsChar c = false := by
  cases hds : dsChar c with
  | false => rfl
  | true =>
    exfalso
    simp only [dsChar, Bool.or_eq_true, beq_iff_eq] at hds
    rcases hds with rfl | rfl
    · exact absurd h (by decide)
    · exact absurd h (by decide)

theorem idChar_not_eqc {c : Char} (h : isIdChar c = true) : (c == '=') = false := by
  cases he : (c == '=') with
  | false => rfl
  | true =>
    simp only [beq_iff_eq] at he
    subst he
    exact absurd h (by decide)

/-- Shared suffix-stripping core for the youtu.be/embed/v branches. -/
theorem extract_core (sep : List Char) (bad : Char → Bool) (id sfx : List Char)
    (hsep : sep.any bad = true) (hid : ∀ c ∈ id, bad c = false)
    (hq : '?' ∉ id) (ha : '&' ∉ id) (hqm : '?' ∉ sep) (hamp : '&' ∉ sep)
    (hshape : sfx = [] ∨ (∃ r, sfx = '?' :: r) ∨ (∃ r, sfx = '&' :: r)) :
    pyIdx0 (splitOnSub ['&'] (pyIdx0 (splitOnSub ['?'] (preSeg sep (id ++ sfx))))) = id := by
  obtain ⟨hps1, hps2⟩ := preSeg_sep_of_id hsep hid
  obtain ⟨hs1, hs2, hs3⟩ := strip_qm_amp hq ha
  rcases hshape with rfl | ⟨r, rfl⟩ | ⟨r, rfl⟩
  · rw [List.append_nil, hps1]
    exact hs1
  · rw [hps2 '?' r hqm]
    exact hs2 _
  · rw [hps2 '&' r hamp]
    exact hs3 _

/-- Suffix-stripping core for the watch branch (which only splits on `&`). -/
theorem extract_core_watch (id sfx : List Char)
    (hide : ∀ c ∈ id, (c == '=') = false) (ha : '&' ∉ id)
    (hshape : sfx = [] ∨ (∃ r, sfx = '&' :: r)) :
    pyIdx0 (splitOnSub ['&'] (preSeg veqSep (id ++ sfx))) = id := by
  have hps := @preSeg_sep_of_id veqSep (fun c => c == '=') id (by decide) hide
  rcases hshape with rfl | ⟨r, rfl⟩
  · rw [List.append_nil, hps.1, split_idx0, preSeg_single_no ha]
  · rw [hps.2 '&' r (by decide), split_idx0]
    exact preSeg_single_app _ ha

/-- **C8 amended.** For the supported URL shapes carrying an
11-character id over the id alphabet and an optional query suffix over
query-safe characters: the youtu.be, embed and v/ shapes return exactly
the id, stripping both `?`- and `&`-suffixes, without invoking the
external fallback; the watch?v= shape does so for an absent or
`&`-suffix, but (per the counterexample) does not strip a `?`-suffix. -/
theorem extract_id_supported_shapes (fb : Option (List Char)) (id sfx : List Char)
    (_hlen : id.length = 11) (hid : ∀ c ∈ id, isIdChar c = true)
    (hsfx : ∀ c ∈ sfx, isQueryChar c = true)
    (hshape : sfx = [] ∨ (∃ r, sfx = '?' :: r) ∨ (∃ r, sfx = '&' :: r)) :
    extract_video_id fb ("https://youtu.be/".data ++ id ++ sfx) =
      ⟨some id, false⟩ ∧
    extract_video_id fb ("https://www.youtube.com/embed/".data ++ id ++ sfx) =
      ⟨some id, false⟩ ∧
    extract_video_id fb ("https://www.youtube.com/v/".data ++ id ++ sfx) =
      ⟨some id, false⟩ ∧
    ((sfx = [] ∨ (∃ r, sfx = '&' :: r)) →
      extract_video_id fb ("https://www.youtube.com/watch?v=".data ++ id ++ sfx) =
        ⟨some id, false⟩) := by
  have hq : '?' ∉ id := fun hm => absurd (hid '?' hm) (by decide)
  have hamp : '&' ∉ id := fun hm => absurd (hid '&' hm) (by decide)
  have hidds : ∀ c ∈ id, dsChar c = false := fun c hc => idChar_not_ds (hid c hc)
  have hxds : ∀ c ∈ id ++ sfx, dsChar c = false := by
    intro c hc
    rcases List.mem_append.1 hc with h | h
    · exact idChar_not_ds (hid c h)
    · exact queryChar_not_ds (hsfx c h)
  refine ⟨?_, ?_, ?_, ?_⟩
  · -- youtu.be/<id><sfx>
    have e1 : "https://youtu.be/".data ++ id ++ sfx =
        ("https://".data ++ ytbeSep) ++ (id ++ sfx) := by
      rw [List.append_assoc]
      rw [show "https://youtu.be/".data = "https://".data ++ ytbeSep from by decide]
    rw [e1]
    unfold extract_video_id
    rw [if_pos (pyIn_append_left (id ++ sfx) (by decide))]
    rw [split_idx1 (by decide) (by decide) (id ++ sfx)]
    rw [extract_core ytbeSep dsChar id sfx (by decide) hidds hq hamp
      (by decide) (by decide) hshape]
  · -- youtube.com/embed/<id><sfx>
    have e2 : "https://www.youtube.com/embed/".data ++ id ++ sfx =
        ("https://www.youtube.com/".data ++ embedSep) ++ (id ++ sfx) := by
      rw [List.append_assoc]
      rw [show "https://www.youtube.com/embed/".data =
        "https://www.youtube.com/".data ++ embedSep from by decide]
    rw [e2]
    unfold extract_video_id
    rw [if_neg (by
      rw [pyIn_concat_false (by decide) hxds _ (by decide) (by decide)]
      simp)]
    rw [if_neg (by
      rw [pyIn_concat_false (by decide) hxds _ (by decide) (by decide)]
      simp)]
    rw [if_pos (pyIn_append_left (id ++ sfx) (by decide))]
    rw [split_idx1 (by decide) (by decide) (id ++ sfx)]
    rw [extract_core embedSep dsChar id sfx (by decide) hidds hq hamp
      (by decide) (by decide) hshape]
  · -- youtube.com/v/<id><sfx>
    have e3 : "https://www.youtube.com/v/".data ++ id ++ sfx =
        ("https://www.youtube.com/".data ++ vslashSep) ++ (id ++ sfx) := by
      rw [List.append_assoc]
      rw [show "https://www.youtube.com/v/".data =
        "https://www.youtube.com/".data ++ vslashSep from by decide]
    rw [e3]
    unfold extract_video_id
    rw [if_neg (by
      rw [pyIn_concat_false (by decide) hxds _ (by decide) (by decide)]
      simp)]
    rw [if_neg (by
      rw [pyIn_concat_false (by decide) hxds _ (by decide) (by decide)]
      simp)]
    rw [if_neg (by
      rw [pyIn_concat_false (by decide) hxds _ (by decide) (by decide)]
      simp)]
    rw [if_pos (pyIn_append_left (id ++ sfx) (by decide))]
    rw [split_idx1 (by decide) (by decide) (id ++ sfx)]
    rw [extract_core vslashSep dsChar id sfx (by decide) hidds hq hamp
      (by decide) (by decide) hshape]
  · -- youtube.com/watch?v=<id><sfx>, with sfx empty or &-shaped
    intro hshape4
    have e4 : "https://www.youtube.com/watch?v=".data ++ id ++ sfx =
        ("https://www.youtube.com/watch?".data ++ veqSep) ++ (id ++ sfx) := by
      rw [List.append_assoc]
      rw [show "https://www.youtube.com/watch?v=".data =
        "https://www.youtube.com/watch?".data ++ veqSep from by decide]
    rw [e4]
    unfold extract_video_id
    rw [if_neg (by
      rw [pyIn_concat_false (by decide) hxds _ (by decide) (by decide)]
      simp)]
    rw [if_pos (pyIn_append_left (id ++ sfx) (by decide))]
    rw [if_pos (pyIn_append_left (id ++ sfx) (by decide))]
    rw [split_idx1 (by decide) (by decide) (id ++ sfx)]
    rw [extract_core_watch id sfx (fun c hc => idChar_not_eqc (hid c hc)) hamp hshape4]

set_option maxRecDepth 8000 in
/-- Witness for the amended C8 at a concrete id and `&`-suffix. -/
theorem extract_id_supported_shapes_witness :
    extract_video_id none ("https://youtu.be/".data ++ "dQw4w9WgXcQ".data ++ "&t=10".data) =
      ⟨some "dQw4w9WgXcQ".data, false⟩ ∧
    extract_video_id none
        ("https://www.youtube.com/watch?v=".data ++ "dQw4w9WgXcQ".data ++ "&t=10".data) =
      ⟨some "dQw4w9WgXcQ".data, false⟩ := by
  have h := extract_id_supported_shapes none "dQw4w9WgXcQ".data "&t=10".data
    (by decide) (by decide) (by decide) (Or.inr (Or.inr ⟨"t=10".data, by decide⟩))
  exact ⟨h.1, h.2.2.2 (Or.inr ⟨"t=10".data, by decide⟩)⟩

end YtSvc
